import Mathlib

/-!
Verification of the changefeed core of `src/rdb_protocol/changefeed.hpp`
(RethinkDB changefeed subsystem).

The repository snapshot ships only the header: declarations of `msg_t`,
`keyspec_t`, `limit_manager_t`, `server_t` and `client_t`.  Pure data layout
(variant alternative order, the comparator of `limit_manager_t::data`, field
types) is embedded from the header; the behaviour of the member functions
whose bodies are not in the repository (`send_all`, `add_client`,
`add_limit_client`, `limit_manager_t::commit`, `maybe_remove_feed`, the
serialization routines) is modelled from the specification, as marked in the
doc comments below.

Conventions of the embedding:
* `datum_t` values, UUIDs, mailbox addresses and `std::string` names are
  opaque orderable identifiers, modelled as `Nat`.
* `uint64_t` stamp arithmetic is `Nat` arithmetic modulo `2 ^ 64`.
* C++ containers become Lean lists: `std::multimap` becomes a list of pairs
  kept sorted by the map's comparator, `std::map` becomes an association
  list with distinct keys (distinctness is proved for reachable states).
-/

namespace Changefeed

/-- Modulus of `uint64_t` arithmetic (the type of `client_info_t::stamp`). -/
def U64 : Nat := 2 ^ 64

/-- `datum_t`: the database's self-describing value type; the core treats it
as opaque and orderable, so it is modelled as `Nat`. -/
abbrev Datum := Nat

/-- `uuid_u`, modelled as an opaque identifier. -/
abbrev UuidU := Nat

/-- `client_t::addr_t` (a mailbox address), modelled as an opaque identifier. -/
abbrev ClientAddrT := Nat

/-- A `std::string` table name, modelled as an opaque identifier. -/
abbrev TableName := Nat

/-- A `std::string` secondary-index name, modelled as an opaque identifier. -/
abbrev SindexName := Nat

/-- A row, with its primary key (`StoreKey`) and its payload. -/
structure Row where
  pkey : Datum
  val : Datum
deriving DecidableEq, Repr

/-- A (sort-key, row) pair, the element type of a limit window
(`std::pair<datum_t, datum_t>` in `msg_t::limit_start_t::start_data` and
`limit_manager_t::data`). -/
abbrev Entry := Datum × Row

/-- `datum_range_t` / `region_t`: a half-open range, `none` = unbounded. -/
structure DatumRange where
  lo : Option Datum
  hi : Option Datum
deriving DecidableEq, Repr

/-- Membership of a key in a half-open range. -/
def DatumRange.containsKey (r : DatumRange) (k : Datum) : Bool :=
  (match r.lo with
   | none => true
   | some l => decide (l ≤ k)) &&
  (match r.hi with
   | none => true
   | some h => decide (k < h))

/-- `sorting_t` (from `rdb_protocol/shards.hpp`, used by `keyspec_t::limit_t`). -/
inductive SortingT where
  | unordered : SortingT
  | ascending : SortingT
  | descending : SortingT
deriving DecidableEq, Repr

/-- `keyspec_t::limit_t` (changefeed.hpp lines 127-138): a range over a named
secondary index, a sort direction and a window size. -/
structure LimitT where
  range : DatumRange
  sindex : SindexName
  sorting : SortingT
  limit : Nat
deriving DecidableEq, Repr

/-- `msg_t` (changefeed.hpp lines 68-108).  The payload is a
`boost::variant<stop_t, change_t, limit_start_t, limit_change_t>`; the
constructors below are listed in the declared alternative order.
`change_t` carries old and new value, either absent to denote insert/delete;
`limit_start_t` carries the subscription id and the snapshot;
`limit_change_t` carries the subscription id, an optional deleted sort key
and an optional inserted (sort-key, row) pair. -/
inductive Msg where
  | stop : Msg
  | change (old_val new_val : Option Datum) : Msg
  | limit_start (sub : UuidU) (start_data : List Entry) : Msg
  | limit_change (sub : UuidU) (old_key : Option Datum)
      (new_val : Option Entry) : Msg
deriving DecidableEq, Repr

/-- The alternative tags of the `boost::variant` inside `msg_t`, in the
order declared on line 107 of changefeed.hpp:
`stop_t, change_t, limit_start_t, limit_change_t`. -/
inductive MsgVariantTag where
  | stopTag : MsgVariantTag
  | changeTag : MsgVariantTag
  | limitStartTag : MsgVariantTag
  | limitChangeTag : MsgVariantTag
deriving DecidableEq, Repr

/-- The declared order of the variant alternatives of `msg_t::op`
(changefeed.hpp line 107). -/
def msgVariantOrder : List MsgVariantTag :=
  [.stopTag, .changeTag, .limitStartTag, .limitChangeTag]

/-- The value-initialized member of a given alternative (each alternative of
`msg_t` is default-constructible; `stop_t` is empty, the others value-
initialize their fields). -/
def valueInitMsg : MsgVariantTag → Msg
  | .stopTag => .stop
  | .changeTag => .change none none
  | .limitStartTag => .limit_start 0 []
  | .limitChangeTag => .limit_change 0 none none

/-- A default-constructed `msg_t`: `msg_t() { }` leaves `op` to its default
constructor, and a `boost::variant` default-constructs the *first* declared
alternative.  (The header's own comment on line 106: "Starts with STOP to
avoid doing work for default initialization.") -/
def msg_t_default : Msg := valueInitMsg (msgVariantOrder.head (by decide))

/-- Is a message the `stop_t` variant?  (The dispatch a consumer performs.) -/
def Msg.isStopVariant : Msg → Bool
  | .stop => true
  | _ => false

/-- `stamped_msg_t` (declared line 117; wire form per spec section 6):
`(server_id, stamp, msg)`. -/
structure StampedMsg where
  server : UuidU
  stamp : Nat
  msg : Msg
deriving DecidableEq, Repr

/-! ### Client registry (`client_t`), for C8 -/

/-- The client-side state of one `feed_t` that the registry logic observes:
the number of subscriptions attached to it. -/
structure FeedStub where
  subCount : Nat
deriving DecidableEq, Repr

/-- The `client_t::feeds` map from table UUID to feed, modelled as a
function to `Option`. -/
abbrev FeedsMap := Nat → Option FeedStub

/-- Modelled from the spec: the body of `client_t::maybe_remove_feed`
(declared changefeed.hpp line 194) is not in the repository.  Spec section
4.5: "called by a Feed on reaching zero subscriptions; under the write
lock, re-check zero and erase". -/
def maybe_remove_feed (feeds : FeedsMap) (tbl : Nat) : FeedsMap :=
  match feeds tbl with
  | some f =>
    if f.subCount = 0 then fun t => if t = tbl then none else feeds t
    else feeds
  | none => feeds

/-! ### Serialization (for C9) -/

/-- Modelled from the spec: the bodies of the `RDB_DECLARE_SERIALIZABLE`
declarations (changefeed.hpp lines 110-114) are not in the repository.
Spec section 6: the four payloads are length-prefixed tagged values.  The
wire is modelled as a list of `Nat` tokens; sequences are length-prefixed
and the `msg_t` variant is tag-prefixed in declared alternative order. -/
def encOptDatum : Option Datum → List Nat
  | none => [0]
  | some v => [1, v]

/-- Token encoding of a row. -/
def encRow (r : Row) : List Nat := [r.pkey, r.val]

/-- Token encoding of a (sort-key, row) pair. -/
def encEntry (e : Entry) : List Nat := e.1 :: encRow e.2

/-- Token encoding of an optional (sort-key, row) pair. -/
def encOptEntry : Option Entry → List Nat
  | none => [0]
  | some e => 1 :: encEntry e

/-- Length-prefixed token encoding of a sequence of entries. -/
def encEntryList (l : List Entry) : List Nat :=
  l.length :: (l.map encEntry).flatten

/-- Token encoding of `msg_t`, tag-prefixed in declared alternative order. -/
def encMsg : Msg → List Nat
  | .stop => [0]
  | .change o n => 1 :: (encOptDatum o ++ encOptDatum n)
  | .limit_start sub sd => 2 :: sub :: encEntryList sd
  | .limit_change sub ok nv => 3 :: sub :: (encOptDatum ok ++ encOptEntry nv)

/-- Token encoding of `stamped_msg_t`: server id, stamp, payload. -/
def encStamped (s : StampedMsg) : List Nat :=
  s.server :: s.stamp :: encMsg s.msg

/-- Decoder for one token. -/
def decNat : List Nat → Option (Nat × List Nat)
  | [] => none
  | n :: rest => some (n, rest)

/-- Decoder for an optional datum. -/
def decOptDatum : List Nat → Option (Option Datum × List Nat)
  | 0 :: rest => some (none, rest)
  | 1 :: v :: rest => some (some v, rest)
  | _ => none

/-- Decoder for a row. -/
def decRow : List Nat → Option (Row × List Nat)
  | p :: v :: rest => some (⟨p, v⟩, rest)
  | _ => none

/-- Decoder for a (sort-key, row) pair. -/
def decEntry : List Nat → Option (Entry × List Nat)
  | sk :: rest =>
    match decRow rest with
    | some (r, rest2) => some ((sk, r), rest2)
    | none => none
  | _ => none

/-- Decoder for an optional (sort-key, row) pair. -/
def decOptEntry : List Nat → Option (Option Entry × List Nat)
  | 0 :: rest => some (none, rest)
  | 1 :: rest =>
    match decEntry rest with
    | some (e, rest2) => some (some e, rest2)
    | none => none
  | _ => none

/-- Decoder for a counted sequence of entries. -/
def decEntries : Nat → List Nat → Option (List Entry × List Nat)
  | 0, rest => some ([], rest)
  | n + 1, rest =>
    match decEntry rest with
    | some (e, rest2) =>
      match decEntries n rest2 with
      | some (es, rest3) => some (e :: es, rest3)
      | none => none
    | none => none

/-- Decoder for a length-prefixed sequence of entries. -/
def decEntryList : List Nat → Option (List Entry × List Nat)
  | [] => none
  | n :: rest => decEntries n rest

/-- Decoder for `msg_t`. -/
def decMsg : List Nat → Option (Msg × List Nat)
  | 0 :: rest => some (.stop, rest)
  | 1 :: rest =>
    match decOptDatum rest with
    | some (o, rest2) =>
      match decOptDatum rest2 with
      | some (n, rest3) => some (.change o n, rest3)
      | none => none
    | none => none
  | 2 :: sub :: rest =>
    match decEntryList rest with
    | some (sd, rest2) => some (.limit_start sub sd, rest2)
    | none => none
  | 3 :: sub :: rest =>
    match decOptDatum rest with
    | some (ok, rest2) =>
      match decOptEntry rest2 with
      | some (nv, rest3) => some (.limit_change sub ok nv, rest3)
      | none => none
    | none => none
  | _ => none

/-- Decoder for `stamped_msg_t`. -/
def decStamped : List Nat → Option (StampedMsg × List Nat)
  | server :: stamp :: rest =>
    match decMsg rest with
    | some (m, rest2) => some (⟨server, stamp, m⟩, rest2)
    | none => none
  | _ => none

/-! ### Limit-window manager (`limit_manager_t`, changefeed.hpp 223-270) -/

/-- `limit_manager_t`'s fields (changefeed.hpp lines 223-270).  `data` is
`std::multimap<datum_t, datum_t, std::less>` — a window kept sorted by the
sort key *ascending* (the source comparator is `std::less` irrespective of
`spec.sorting`; the header marks this `// RSI: sorting` on line 262) —
modelled as a list sorted ascending by the sort key, with multimap insertion
order on equal keys.  `added` and `deleted` are the staging buffers. -/
structure LimitManager where
  table : TableName
  sindex : SindexName
  parent_client : ClientAddrT
  uuid : UuidU
  spec : LimitT
  data : List Entry
  added : List Entry
  deleted : List Datum
deriving DecidableEq, Repr

/-- Insertion at the `std::multimap` upper bound: after every entry whose
sort key is `≤` the inserted key (comparator `std::less`, changefeed.hpp
line 263). -/
def mmInsert (e : Entry) : List Entry → List Entry
  | [] => [e]
  | x :: xs => if x.1 ≤ e.1 then x :: mmInsert e xs else e :: x :: xs

/-- Insert a batch of entries into the sorted window, in order. -/
def mmInsertAll (es : List Entry) (w : List Entry) : List Entry :=
  es.foldl (fun acc e => mmInsert e acc) w

/-- Remove the first entry with the given sort key, returning the remaining
window and the removed entry (if any). -/
def removeFirstKey (k : Datum) : List Entry → List Entry × Option Entry
  | [] => ([], none)
  | x :: xs =>
    if x.1 = k then (xs, some x)
    else
      let r := removeFirstKey k xs
      (x :: r.1, r.2)

/-- Apply the staged `deleted` sort keys to a window, collecting the entries
that were actually removed. -/
def applyDels (dels : List Datum) (w : List Entry) : List Entry × List Entry :=
  dels.foldl
    (fun acc k =>
      let r := removeFirstKey k acc.1
      (r.1, acc.2 ++ r.2.toList))
    (w, [])

/-- `pure_read_func_t` (changefeed.hpp lines 52-55): reads up to `n` entries
past the active range's edge for the given table and secondary index. -/
abbrev ReadFunc := DatumRange → TableName → SindexName → Nat → List Entry

/-- The argument tuple of one `read_func` invocation. -/
structure ReadCall where
  active_range : DatumRange
  table : TableName
  sindex : SindexName
  n : Nat
deriving DecidableEq, Repr

/-- The sort-key range currently occupied by a window (spec section 4.2:
"the *active range* is the sort-key range currently occupied by the
window"). -/
def activeRange (w : List Entry) : DatumRange :=
  { lo := w.head?.map Prod.fst, hi := w.getLast?.map Prod.fst }

/-- Keep the fetched entries whose primary key is not among `pkeys` (nor
repeated within the fetched batch itself): deduplication by primary key. -/
def acceptNew (pkeys : List Datum) : List Entry → List Entry
  | [] => []
  | e :: es =>
    if pkeys.contains e.2.pkey then acceptNew pkeys es
    else e :: acceptNew (e.2.pkey :: pkeys) es

/-- The replacement entries a refill admits: fetched entries deduplicated by
primary key against the window, at most `n` of them. -/
def refillEntries (w : List Entry) (fetched : List Entry) (n : Nat) : List Entry :=
  (acceptNew (w.map (fun e => e.2.pkey)) fetched).take n

/-- The window after applying the staged deletions and then the staged
additions (spec section 4.2 step 1). -/
def postApply (m : LimitManager) : List Entry :=
  mmInsertAll m.added (applyDels m.deleted m.data).1

/-- The window kept after truncation to the window size (spec step 2;
the source window is ascending, so the kept entries are the first
`spec.limit`). -/
def keptWindow (m : LimitManager) : List Entry :=
  (postApply m).take m.spec.limit

/-- The entries truncated from the losing end (spec step 2). -/
def truncEntries (m : LimitManager) : List Entry :=
  (postApply m).drop m.spec.limit

/-- The entries removed by the staged deletions. -/
def removedByDels (m : LimitManager) : List Entry :=
  (applyDels m.deleted m.data).2

/-- Spec section 4.2 step 3's refill condition: the window holds fewer than
N entries and at least one deletion was staged. -/
def needsRefill (m : LimitManager) : Bool :=
  decide ((keptWindow m).length < m.spec.limit) && !m.deleted.isEmpty

/-- The read a refill performs: active range of the current window, table
name, secondary index, and `N -` current window size (spec step 3). -/
def refillCall (m : LimitManager) : ReadCall :=
  { active_range := activeRange (keptWindow m)
    table := m.table
    sindex := m.sindex
    n := m.spec.limit - (keptWindow m).length }

/-- The entries a refill admits, for a given reader. -/
def refillFetched (m : LimitManager) (rf : ReadFunc) : List Entry :=
  refillEntries (keptWindow m)
    (rf (refillCall m).active_range (refillCall m).table (refillCall m).sindex
      (refillCall m).n)
    (refillCall m).n

/-- The result of `limit_manager_t::commit`: the updated manager, the
`limit_change_t` diffs it emitted in order, and the `read_func` invocation
it performed (if any). -/
structure CommitResult where
  mgr : LimitManager
  diffs : List Msg
  readCall : Option ReadCall
deriving Repr

/-- Modelled from the spec: the body of `limit_manager_t::commit` (declared
changefeed.hpp line 246) is not in the repository.  Spec section 4.2:
apply `deleted` then `added` to the sorted window; truncate beyond N from
the losing end, truncated entries becoming deletion diffs; if fewer than N
remain and a deletion was staged, invoke `read_func(active_range, table,
sindex, N - size)` and merge the result deduplicating by primary key,
admitted entries becoming insertion diffs; emit all deletion diffs
(staged deletions, then truncation) before all insertion diffs (surviving
staged additions, then refill); clear `added` and `deleted`.  The window
order follows the source's `std::less` multimap (ascending sort key,
`// RSI: sorting`). -/
def LimitManager.commit (m : LimitManager) (rf : ReadFunc) : CommitResult :=
  let newEntries := if needsRefill m then refillFetched m rf else []
  let window := mmInsertAll newEntries (keptWindow m)
  let delDiffs := (removedByDels m ++ truncEntries m).map
    (fun e => Msg.limit_change m.uuid (some e.1) none)
  let insDiffs := (m.added.diff (truncEntries m) ++ newEntries).map
    (fun e => Msg.limit_change m.uuid none (some e))
  { mgr := { m with data := window, added := [], deleted := [] }
    diffs := delDiffs ++ insDiffs
    readCall := if needsRefill m then some (refillCall m) else none }

/-- `limit_manager_t::add` (declared line 245): append to `added`. -/
def LimitManager.add (m : LimitManager) (key : Datum) (val : Row) : LimitManager :=
  { m with added := m.added ++ [(key, val)] }

/-- `limit_manager_t::del` (declared line 244): append to `deleted`. -/
def LimitManager.del (m : LimitManager) (key : Datum) : LimitManager :=
  { m with deleted := m.deleted ++ [key] }

/-! ### Ordering predicates on windows -/

/-- Adjacent-pairs check of a Boolean order on a list. -/
def pairwiseChain (le : Entry → Entry → Bool) : List Entry → Bool
  | [] => true
  | [_] => true
  | a :: b :: t => le a b && pairwiseChain le (b :: t)

/-- Sort-key comparison used by the source's window (`std::less` on the
sort key only). -/
def skLe (a b : Entry) : Bool := decide (a.1 ≤ b.1)

/-- (sort-key, primary-key) lexicographic comparison — the order the claim
and the spec name. -/
def keyPairLe (a b : Entry) : Bool :=
  decide (a.1 < b.1) || (decide (a.1 = b.1) && decide (a.2.pkey ≤ b.2.pkey))

/-- Follows the claim's words (spec I6): the window is ordered by
(sort-key, primary-key) ascending or descending according to the `sorting`
field of the limit spec.  Stated as a second, spec-side definition to be
compared against the window the source maintains. -/
def specOrderedPerSorting (srt : SortingT) (w : List Entry) : Bool :=
  match srt with
  | .ascending => pairwiseChain keyPairLe w
  | .descending => pairwiseChain (fun a b => keyPairLe b a) w
  | .unordered => true

/-! ### Server broadcaster (`server_t`, changefeed.hpp 275-335) -/

/-- `server_t::client_info_t` (changefeed.hpp lines 306-311): the per-client
`uint64_t stamp`, the list of regions, and the client's limit managers
(the source's `std::map<std::string, std::vector<limit_manager_t>>` is
flattened to a list — each manager carries its own `sindex` field). -/
structure ClientInfo where
  stamp : Nat
  regions : List DatumRange
  limit_clients : List LimitManager
deriving DecidableEq, Repr

/-- The `server_t` state: its UUID, the table it serves, and the `clients`
map (`std::map<client_t::addr_t, client_info_t>`, modelled as an association
list; reachable states have pairwise-distinct keys). -/
structure ServerState where
  sid : UuidU
  table : TableName
  clients : List (ClientAddrT × ClientInfo)
deriving Repr

/-- Lookup in the clients association list. -/
def lookupClient : List (ClientAddrT × ClientInfo) → ClientAddrT → Option ClientInfo
  | [], _ => none
  | (b, i) :: rest, a => if b = a then some i else lookupClient rest a

/-- Pointwise update of every entry with the given key. -/
def updateClient (cs : List (ClientAddrT × ClientInfo)) (a : ClientAddrT)
    (f : ClientInfo → ClientInfo) : List (ClientAddrT × ClientInfo) :=
  cs.map (fun p => (p.1, if p.1 = a then f p.2 else p.2))

/-- The keys of the clients map. -/
def clientKeys (cs : List (ClientAddrT × ClientInfo)) : List ClientAddrT :=
  cs.map Prod.fst

/-- Does the client own the limit subscription `sub`? -/
def ClientInfo.hasSub (i : ClientInfo) (sub : UuidU) : Bool :=
  i.limit_clients.any (fun m => m.uuid = sub)

/-- Does any region registered for the client contain the key? -/
def regionsContain (i : ClientInfo) (k : Datum) : Bool :=
  i.regions.any (fun r => r.containsKey k)

/-- Modelled from the spec: the payload filter of `send_all` (body absent
from the repository).  Spec sections 4.1 and 4.3: a `LimitChange` (or
`LimitStart`) specific to one subscription is only sent to the client owning
that subscription; `Stop` and `Change` pass. -/
def payloadAllows (i : ClientInfo) (m : Msg) : Bool :=
  match m with
  | .limit_start sub _ => i.hasSub sub
  | .limit_change sub _ _ => i.hasSub sub
  | _ => true

/-- Does `send_all` notify this client for this message and key?  Spec 4.1:
the server selects the clients whose regions contain the key, and the
message's payload filter must not exclude the client. -/
def notifies (i : ClientInfo) (m : Msg) (k : Datum) : Bool :=
  regionsContain i k && payloadAllows i m

/-- One `uint64_t` stamp increment. -/
def bumpStamp (s : Nat) : Nat := (s + 1) % U64

/-- Transmit a sequence of messages to one client starting at a given stamp:
each message carries the pre-increment stamp, then the stamp is bumped
(spec 4.1: "the value transmitted is the pre-increment value").  Returns the
final stamp and the stamped messages in transmission order. -/
def sendSeq (sid : UuidU) (a : ClientAddrT) (stamp0 : Nat) :
    List Msg → Nat × List (ClientAddrT × StampedMsg)
  | [] => (stamp0, [])
  | m :: ms =>
    let r := sendSeq sid a (bumpStamp stamp0) ms
    (r.1, (a, ⟨sid, stamp0, m⟩) :: r.2)

/-- Modelled from the spec: `server_t::add_client` (declared line 280, body
absent).  Spec 4.1: register the address with the region; a new entry has
stamp 0; repeated adds extend the list of regions. -/
def addClientState (st : ServerState) (a : ClientAddrT) (r : DatumRange) :
    ServerState :=
  match lookupClient st.clients a with
  | some _ =>
    { st with clients :=
        updateClient st.clients a (fun i => { i with regions := i.regions ++ [r] }) }
  | none =>
    { st with clients :=
        st.clients ++ [(a, { stamp := 0, regions := [r], limit_clients := [] })] }

/-- Targeted transmission of one message to one client (the
`send_one_with_lock` path, declared line 314): assign the client's current
stamp, transmit, bump. -/
def sendOne (st : ServerState) (a : ClientAddrT) (m : Msg) :
    ServerState × List (ClientAddrT × StampedMsg) :=
  match lookupClient st.clients a with
  | some i =>
    ({ st with clients :=
        updateClient st.clients a (fun j => { j with stamp := bumpStamp j.stamp }) },
     [(a, ⟨st.sid, i.stamp, m⟩)])
  | none => (st, [])

/-- Append a limit manager to a client's entry. -/
def addMgr (st : ServerState) (a : ClientAddrT) (mgr : LimitManager) : ServerState :=
  let f := fun i : ClientInfo => { i with limit_clients := i.limit_clients ++ [mgr] }
  { st with clients := updateClient st.clients a f }

/-- The initial snapshot of a limit window: the initial read's result,
inserted into the source's ascending multimap order, truncated to the window
size (spec 4.1/4.2). -/
def initWindow (rf : ReadFunc) (tbl : TableName) (l : LimitT) : List Entry :=
  (mmInsertAll (rf l.range tbl l.sindex l.limit) []).take l.limit

/-- Modelled from the spec: `server_t::add_limit_client` (declared lines
281-285, body absent).  Spec 4.1: register the address (as `add_client`
does), perform the initial read, install the limit manager for `sub`, and
send a `LimitStart` carrying the snapshot before any `LimitChange` for
`sub`. -/
def addLimitClientState (rf : ReadFunc) (st : ServerState) (a : ClientAddrT)
    (r : DatumRange) (sub : UuidU) (l : LimitT) :
    ServerState × List (ClientAddrT × StampedMsg) :=
  let st1 := addClientState st a r
  let w := initWindow rf st.table l
  let mgr : LimitManager :=
    { table := st.table, sindex := l.sindex, parent_client := a, uuid := sub,
      spec := l, data := w, added := [], deleted := [] }
  sendOne (addMgr st1 a mgr) a (Msg.limit_start sub w)

/-- Modelled from the spec: the messages `server_t::send_all` (declared line
287, body absent) transmits — one stamped copy per notified client, carrying
that client's pre-increment stamp. -/
def sendAllMsgs (st : ServerState) (m : Msg) (k : Datum) :
    List (ClientAddrT × StampedMsg) :=
  st.clients.filterMap (fun p =>
    if notifies p.2 m k then some (p.1, ⟨st.sid, p.2.stamp, m⟩) else none)

/-- The per-client effect of `send_all`: bump the stamp iff the client is
notified. -/
def sendAllInfo (m : Msg) (k : Datum) (i : ClientInfo) : ClientInfo :=
  if notifies i m k then { i with stamp := bumpStamp i.stamp } else i

/-- Modelled from the spec: the clients map after `send_all` — each notified
client's stamp is bumped, all other state unchanged; excluded clients are
untouched (spec 4.1: "no message is sent and no stamp is consumed"). -/
def sendAllClients (st : ServerState) (m : Msg) (k : Datum) :
    List (ClientAddrT × ClientInfo) :=
  st.clients.map (fun p => (p.1, sendAllInfo m k p.2))

/-- Stage an addition into every limit manager with the given secondary
index (the `foreach_limit` + `limit_manager_t::add` write path). -/
def stageAdd (st : ServerState) (s : SindexName) (key : Datum) (val : Row) :
    ServerState :=
  let g := fun m : LimitManager => if m.sindex = s then m.add key val else m
  let f := fun i : ClientInfo => { i with limit_clients := i.limit_clients.map g }
  { st with clients := st.clients.map (fun p => (p.1, f p.2)) }

/-- Stage a deletion into every limit manager with the given secondary
index (the `foreach_limit` + `limit_manager_t::del` write path). -/
def stageDel (st : ServerState) (s : SindexName) (key : Datum) : ServerState :=
  let g := fun m : LimitManager => if m.sindex = s then m.del key else m
  let f := fun i : ClientInfo => { i with limit_clients := i.limit_clients.map g }
  { st with clients := st.clients.map (fun p => (p.1, f p.2)) }

/-- Commit every limit manager with the given secondary index in a list,
returning the updated managers and the concatenated diffs in order. -/
def commitMgrs (rf : ReadFunc) (s : SindexName) :
    List LimitManager → List LimitManager × List Msg
  | [] => ([], [])
  | m :: ms =>
    let rest := commitMgrs rf s ms
    if m.sindex = s then
      let c := m.commit rf
      (c.mgr :: rest.1, c.diffs ++ rest.2)
    else (m :: rest.1, rest.2)

/-- The diffs committing one client's limit managers emits, in order. -/
def commitDiffs (rf : ReadFunc) (s : SindexName) (i : ClientInfo) : List Msg :=
  (commitMgrs rf s i.limit_clients).2

/-- The client entry after committing its limit managers with the given
secondary index: updated managers, stamp advanced once per emitted diff. -/
def commitInfo (rf : ReadFunc) (sid : UuidU) (s : SindexName)
    (a : ClientAddrT) (i : ClientInfo) : ClientInfo :=
  { i with stamp := (sendSeq sid a i.stamp (commitDiffs rf s i)).1,
           limit_clients := (commitMgrs rf s i.limit_clients).1 }

/-- The stamped diff messages transmitted to one client by a commit pass. -/
def commitMsgs (rf : ReadFunc) (sid : UuidU) (s : SindexName)
    (a : ClientAddrT) (i : ClientInfo) : List (ClientAddrT × StampedMsg) :=
  (sendSeq sid a i.stamp (commitDiffs rf s i)).2

/-- Modelled from the spec: `server_t::foreach_limit` followed by commits
(spec 4.1/4.2 step 4: diffs are emitted through the broadcaster, targeted
only at the subscription owning the manager, stamped per client). -/
def commitStep (rf : ReadFunc) (st : ServerState) (s : SindexName) :
    ServerState × List (ClientAddrT × StampedMsg) :=
  ({ st with clients := st.clients.map (fun p => (p.1, commitInfo rf st.sid s p.1 p.2)) },
   (st.clients.map (fun p => commitMsgs rf st.sid s p.1 p.2)).flatten)

/-- The operations the server performs, driven by its callers (subscription
registration, the write pipeline, the limit write path). -/
inductive ServerOp where
  | add_client (a : ClientAddrT) (r : DatumRange) : ServerOp
  | add_limit_client (a : ClientAddrT) (r : DatumRange) (sub : UuidU)
      (l : LimitT) : ServerOp
  | send_all (m : Msg) (k : Datum) : ServerOp
  | stage_add (s : SindexName) (key : Datum) (val : Row) : ServerOp
  | stage_del (s : SindexName) (key : Datum) : ServerOp
  | commit_limits (s : SindexName) : ServerOp

/-- One step of the server, returning the new state and the stamped
messages transmitted (destination address paired with each). -/
def stepOp (rf : ReadFunc) (st : ServerState) :
    ServerOp → ServerState × List (ClientAddrT × StampedMsg)
  | .add_client a r => (addClientState st a r, [])
  | .add_limit_client a r sub l => addLimitClientState rf st a r sub l
  | .send_all m k => ({ st with clients := sendAllClients st m k }, sendAllMsgs st m k)
  | .stage_add s key val => (stageAdd st s key val, [])
  | .stage_del s key => (stageDel st s key, [])
  | .commit_limits s => commitStep rf st s

/-- Run a list of operations, accumulating the transmission trace. -/
def runOps (rf : ReadFunc) (st : ServerState) :
    List ServerOp → ServerState × List (ClientAddrT × StampedMsg)
  | [] => (st, [])
  | op :: ops =>
    let r := stepOp rf st op
    let rest := runOps rf r.1 ops
    (rest.1, r.2 ++ rest.2)

/-- A freshly constructed server: no clients. -/
def initServer (sid : UuidU) (tbl : TableName) : ServerState :=
  { sid := sid, table := tbl, clients := [] }

/-- The transmission trace of a run from a fresh server. -/
def serverTrace (rf : ReadFunc) (sid : UuidU) (tbl : TableName)
    (ops : List ServerOp) : List (ClientAddrT × StampedMsg) :=
  (runOps rf (initServer sid tbl) ops).2

/-- The server state after a run from a fresh server. -/
def serverAfter (rf : ReadFunc) (sid : UuidU) (tbl : TableName)
    (ops : List ServerOp) : ServerState :=
  (runOps rf (initServer sid tbl) ops).1

/-- The messages of a trace transmitted to one client address. -/
def msgsTo (a : ClientAddrT) (tr : List (ClientAddrT × StampedMsg)) :
    List StampedMsg :=
  tr.filterMap (fun p => if p.1 = a then some p.2 else none)

/-- The stamps of a trace transmitted to one client address, in order. -/
def stampsTo (a : ClientAddrT) (tr : List (ClientAddrT × StampedMsg)) : List Nat :=
  (msgsTo a tr).map StampedMsg.stamp

/-- Is a trace element a `LimitChange` for the given subscription id? -/
def isLimitChangeFor (sub : UuidU) (p : ClientAddrT × StampedMsg) : Bool :=
  match p.2.msg with
  | .limit_change s _ _ => decide (s = sub)
  | _ => false

/-- Is a trace element a `LimitStart` for the given subscription id? -/
def isLimitStartFor (sub : UuidU) (p : ClientAddrT × StampedMsg) : Bool :=
  match p.2.msg with
  | .limit_start s _ => decide (s = sub)
  | _ => false

/-- Scan of a trace: `true` iff every `LimitChange` for `sub` is preceded by
some `LimitStart` for `sub` (second argument: whether a `LimitStart` for
`sub` has already been seen). -/
def lsBeforeLc (sub : UuidU) : List (ClientAddrT × StampedMsg) → Bool → Bool
  | [], _ => true
  | e :: r, seen =>
    (!(isLimitChangeFor sub e) || seen) && lsBeforeLc sub r (seen || isLimitStartFor sub e)

/-- Does some client of the server own the limit subscription `sub`? -/
def subRegistered (sub : UuidU) (st : ServerState) : Bool :=
  st.clients.any (fun p => p.2.hasSub sub)

/-- The stamp bookkeeping invariant tying a server state to the trace that
produced it: client keys are distinct; for every address, the transmitted
stamps are `0, 1, 2, ...` reduced mod `2^64`, a registered client's stamp
counter equals the number of messages transmitted to it mod `2^64`, and an
unregistered address has received nothing. -/
def StampInv (st : ServerState) (tr : List (ClientAddrT × StampedMsg)) : Prop :=
  (clientKeys st.clients).Nodup ∧
  ∀ a : ClientAddrT,
    stampsTo a tr = (List.range (msgsTo a tr).length).map (fun x => x % U64) ∧
    (∀ i : ClientInfo, lookupClient st.clients a = some i →
      i.stamp = (msgsTo a tr).length % U64) ∧
    (lookupClient st.clients a = none → msgsTo a tr = [])

/-- The subscription bookkeeping invariant for a fixed `sub`: the trace so
far has every `LimitChange` for `sub` preceded by a `LimitStart` for `sub`,
and if some client owns `sub` then a `LimitStart` for `sub` has been
transmitted. -/
def SubInv (sub : UuidU) (st : ServerState) (tr : List (ClientAddrT × StampedMsg)) : Prop :=
  lsBeforeLc sub tr false = true ∧
  (subRegistered sub st = true → tr.any (isLimitStartFor sub) = true)

/-! ### Concrete inputs used to instantiate the hypotheses of the claim
theorems -/

/-- A reader that returns no rows (the refill path of the commits evaluated
with it is not taken). -/
def rfEmptyRead : ReadFunc := fun _ _ _ _ => []

/-- The full (unbounded) range. -/
def rangeFull : DatumRange := ⟨none, none⟩

/-- A run registering one range client and broadcasting two changes. -/
def opsTwoSends : List ServerOp :=
  [.add_client 1 rangeFull,
   .send_all (.change none (some 3)) 0,
   .send_all (.change (some 3) none) 0]

/-- A run registering a single range client. -/
def opsOneClient : List ServerOp := [.add_client 1 rangeFull]

/-- A `LimitChange` for a subscription id nobody owns. -/
def msgForeignLC : Msg := .limit_change 9 none none

/-- The client entry as it stands right after `add_client 1 rangeFull`. -/
def infoFresh : ClientInfo := { stamp := 0, regions := [rangeFull], limit_clients := [] }

/-- A limit manager whose limit spec requests *descending* order: window
size 2, with two staged additions and nothing else. -/
def mgrDescending : LimitManager :=
  { table := 0, sindex := 0, parent_client := 0, uuid := 0,
    spec := { range := ⟨none, none⟩, sindex := 0,
              sorting := .descending, limit := 2 },
    data := [], added := [(1, ⟨1, 10⟩), (2, ⟨2, 20⟩)], deleted := [] }


/-- Witness for C5 at a concrete input: a window of two rows with window
size 2, one staged deletion, and a reader returning one replacement row. -/
def mgrRefill : LimitManager :=
  { table := 0, sindex := 0, parent_client := 0, uuid := 7,
    spec := { range := ⟨none, none⟩, sindex := 0,
              sorting := .ascending, limit := 2 },
    data := [(1, ⟨1, 1⟩), (2, ⟨2, 2⟩)], added := [], deleted := [1] }

/-- A reader returning a single replacement row past the window's edge. -/
def rfOneRow : ReadFunc := fun _ _ _ _ => [(3, ⟨3, 3⟩)]


/-- Witness for C7: a manager with a one-row window, window size 2, and
empty staging buffers. -/
def mgrIdle : LimitManager :=
  { table := 0, sindex := 0, parent_client := 0, uuid := 7,
    spec := { range := ⟨none, none⟩, sindex := 0,
              sorting := .ascending, limit := 2 },
    data := [(1, ⟨1, 1⟩)], added := [], deleted := [] }


/-! ### Diff-shape predicates and the deletion-before-insertion scan -/

/-- Is a message a limit-window deletion diff (old key present, new value
absent)? -/
def isDelDiff : Msg → Bool
  | .limit_change _ (some _) none => true
  | _ => false

/-- Is a message a limit-window insertion diff (old key absent, new value
present)? -/
def isInsDiff : Msg → Bool
  | .limit_change _ none (some _) => true
  | _ => false

/-- Scan of a diff list: `true` iff no deletion diff occurs after an
insertion diff has been seen (second argument: whether an insertion has
already been seen). -/
def delAfterInsFree : List Msg → Bool → Bool
  | [], _ => true
  | e :: r, seenIns =>
    (!(isDelDiff e) || !seenIns) && delAfterInsFree r (seenIns || isInsDiff e)

theorem delAfterInsFree_append (xs ys : List Msg) (b : Bool) :
    delAfterInsFree (xs ++ ys) b =
      (delAfterInsFree xs b && delAfterInsFree ys (b || xs.any isInsDiff)) := by
  induction xs generalizing b with
  | nil => simp [delAfterInsFree]
  | cons e r ih =>
    show ((!isDelDiff e || !b) && delAfterInsFree (r ++ ys) (b || isInsDiff e)) =
      (((!isDelDiff e || !b) && delAfterInsFree r (b || isInsDiff e)) &&
        delAfterInsFree ys (b || (e :: r).any isInsDiff))
    rw [ih]
    simp [List.any_cons, Bool.and_assoc, Bool.or_assoc]

theorem delAfterInsFree_of_noDel (l : List Msg) (b : Bool)
    (h : l.all (fun e => !isDelDiff e) = true) : delAfterInsFree l b = true := by
  induction l generalizing b with
  | nil => rfl
  | cons e r ih =>
    simp only [List.all_cons, Bool.and_eq_true] at h
    simp [delAfterInsFree, ih _ h.2, h.1]

theorem delAfterInsFree_of_noIns (l : List Msg)
    (h : l.all (fun e => !isInsDiff e) = true) : delAfterInsFree l false = true := by
  induction l with
  | nil => rfl
  | cons e r ih =>
    simp only [List.all_cons, Bool.and_eq_true] at h
    have he : isInsDiff e = false := by
      cases hc : isInsDiff e
      · rfl
      · rw [hc] at h; exact absurd h.1 (by decide)
    simp [delAfterInsFree, he, ih h.2]

theorem all_map_of_pointwise {α β : Type} (f : α → β) (p : β → Bool)
    (l : List α) (h : ∀ a, p (f a) = true) : (l.map f).all p = true := by
  induction l with
  | nil => rfl
  | cons a r ih => simp [List.all_cons, h a, ih]

theorem noIns_of_delShape (m : LimitManager) :
    (((removedByDels m ++ truncEntries m).map
        (fun e => Msg.limit_change m.uuid (some e.1) none)).all
      (fun e => !isInsDiff e)) = true :=
  all_map_of_pointwise _ _ _ (fun _ => rfl)

theorem noDel_of_insShape (m : LimitManager) (l : List Entry) :
    ((l.map (fun e => Msg.limit_change m.uuid none (some e))).all
      (fun e => !isDelDiff e)) = true :=
  all_map_of_pointwise _ _ _ (fun _ => rfl)

/-! ### Clients-map lemmas -/

theorem lookupClient_map (g : ClientAddrT → ClientInfo → ClientInfo)
    (cs : List (ClientAddrT × ClientInfo)) (b : ClientAddrT) :
    lookupClient (cs.map (fun p => (p.1, g p.1 p.2))) b =
      (lookupClient cs b).map (g b) := by
  induction cs with
  | nil => rfl
  | cons p rest ih =>
    rcases p with ⟨c, i⟩
    by_cases h : c = b
    · subst h
      simp [lookupClient]
    · simp [lookupClient, h, ih]

theorem clientKeys_map (g : ClientAddrT → ClientInfo → ClientInfo)
    (cs : List (ClientAddrT × ClientInfo)) :
    clientKeys (cs.map (fun p => (p.1, g p.1 p.2))) = clientKeys cs := by
  induction cs with
  | nil => rfl
  | cons p rest ih =>
    simp only [clientKeys, List.map_cons] at ih ⊢
    rw [ih]

theorem lookupClient_append (cs ds : List (ClientAddrT × ClientInfo)) (b : ClientAddrT) :
    lookupClient (cs ++ ds) b =
      match lookupClient cs b with
      | some j => some j
      | none => lookupClient ds b := by
  induction cs with
  | nil => rfl
  | cons p rest ih =>
    rcases p with ⟨c, i⟩
    by_cases h : c = b
    · subst h
      simp [lookupClient]
    · simp [lookupClient, h, ih]

theorem lookupClient_append_some (cs ds : List (ClientAddrT × ClientInfo))
    (b : ClientAddrT) (j : ClientInfo) (h : lookupClient cs b = some j) :
    lookupClient (cs ++ ds) b = some j := by
  have h2 := lookupClient_append cs ds b
  rw [h] at h2
  exact h2

theorem lookupClient_append_none (cs ds : List (ClientAddrT × ClientInfo))
    (b : ClientAddrT) (h : lookupClient cs b = none) :
    lookupClient (cs ++ ds) b = lookupClient ds b := by
  have h2 := lookupClient_append cs ds b
  rw [h] at h2
  exact h2

theorem lookupClient_update (cs : List (ClientAddrT × ClientInfo))
    (a b : ClientAddrT) (f : ClientInfo → ClientInfo) :
    lookupClient (updateClient cs a f) b =
      if b = a then (lookupClient cs b).map f else lookupClient cs b := by
  have h := lookupClient_map (fun c i => if c = a then f i else i) cs b
  rw [show (cs.map (fun p => (p.1, (fun c i => if c = a then f i else i) p.1 p.2))) =
    updateClient cs a f from rfl] at h
  rw [h]
  by_cases hb : b = a
  · subst hb
    cases lookupClient cs b <;> simp
  · cases lookupClient cs b <;> simp [hb]

theorem clientKeys_update (cs : List (ClientAddrT × ClientInfo))
    (a : ClientAddrT) (f : ClientInfo → ClientInfo) :
    clientKeys (updateClient cs a f) = clientKeys cs := by
  have h := clientKeys_map (fun c i => if c = a then f i else i) cs
  rw [show (cs.map (fun p => (p.1, (fun c i => if c = a then f i else i) p.1 p.2))) =
    updateClient cs a f from rfl] at h
  exact h

theorem lookupClient_none_not_mem (cs : List (ClientAddrT × ClientInfo))
    (a : ClientAddrT) (h : lookupClient cs a = none) : a ∉ clientKeys cs := by
  induction cs with
  | nil => simp [clientKeys]
  | cons p rest ih =>
    rcases p with ⟨c, i⟩
    by_cases hc : c = a
    · subst hc
      simp [lookupClient] at h
    · simp only [lookupClient, if_neg hc] at h
      simp only [clientKeys, List.map_cons]
      intro hmem
      rcases List.mem_cons.mp hmem with h1 | h2
      · exact hc h1.symm
      · exact ih h h2

/-! ### Trace lemmas -/

theorem msgsTo_append (a : ClientAddrT) (t1 t2 : List (ClientAddrT × StampedMsg)) :
    msgsTo a (t1 ++ t2) = msgsTo a t1 ++ msgsTo a t2 := by
  simp [msgsTo, List.filterMap_append]

theorem stampsTo_append (a : ClientAddrT) (t1 t2 : List (ClientAddrT × StampedMsg)) :
    stampsTo a (t1 ++ t2) = stampsTo a t1 ++ stampsTo a t2 := by
  simp [stampsTo, msgsTo_append]

theorem msgsTo_cons_self (a : ClientAddrT) (x : StampedMsg)
    (tr : List (ClientAddrT × StampedMsg)) :
    msgsTo a ((a, x) :: tr) = x :: msgsTo a tr := by
  simp [msgsTo, List.filterMap_cons]

theorem msgsTo_cons_other (a c : ClientAddrT) (x : StampedMsg)
    (tr : List (ClientAddrT × StampedMsg)) (h : c ≠ a) :
    msgsTo a ((c, x) :: tr) = msgsTo a tr := by
  simp [msgsTo, List.filterMap_cons, h]

theorem msgsTo_cons (a c : ClientAddrT) (x : StampedMsg)
    (tr : List (ClientAddrT × StampedMsg)) :
    msgsTo a ((c, x) :: tr) =
      if c = a then x :: msgsTo a tr else msgsTo a tr := by
  by_cases h : c = a
  · subst h
    rw [if_pos rfl, msgsTo_cons_self]
  · rw [if_neg h, msgsTo_cons_other _ _ _ _ h]

/-! ### sendSeq lemmas -/

theorem sendSeq_fst (sid a : Nat) :
    ∀ (msgs : List Msg) (c : Nat),
      (sendSeq sid a (c % U64) msgs).1 = (c + msgs.length) % U64 := by
  intro msgs
  induction msgs with
  | nil => intro c; simp [sendSeq]
  | cons m ms ih =>
    intro c
    show (sendSeq sid a (bumpStamp (c % U64)) ms).1 = (c + (ms.length + 1)) % U64
    have hb : bumpStamp (c % U64) = (c + 1) % U64 := by
      simp [bumpStamp, Nat.mod_add_mod]
    rw [hb, ih (c + 1)]
    congr 1
    omega

theorem sendSeq_mem (sid a : Nat) :
    ∀ (msgs : List Msg) (s0 : Nat) (q : ClientAddrT × StampedMsg),
      q ∈ (sendSeq sid a s0 msgs).2 → q.1 = a ∧ q.2.msg ∈ msgs := by
  intro msgs
  induction msgs with
  | nil => intro s0 q hq; simp [sendSeq] at hq
  | cons m ms ih =>
    intro s0 q hq
    rcases List.mem_cons.mp hq with h1 | h2
    · subst h1
      exact ⟨rfl, List.mem_cons_self _ _⟩
    · obtain ⟨ha, hm⟩ := ih (bumpStamp s0) q h2
      exact ⟨ha, List.mem_cons_of_mem _ hm⟩

theorem msgsTo_sendSeq_other (sid a b : Nat) (hba : b ≠ a) :
    ∀ (msgs : List Msg) (s0 : Nat),
      msgsTo b (sendSeq sid a s0 msgs).2 = [] := by
  intro msgs
  induction msgs with
  | nil => intro s0; rfl
  | cons m ms ih =>
    intro s0
    show msgsTo b ((a, ⟨sid, s0, m⟩) :: (sendSeq sid a (bumpStamp s0) ms).2) = []
    rw [msgsTo_cons_other _ _ _ _ (fun h => hba h.symm), ih]

theorem msgsTo_sendSeq_self (sid a : Nat) :
    ∀ (msgs : List Msg) (s0 : Nat),
      (msgsTo a (sendSeq sid a s0 msgs).2).length = msgs.length := by
  intro msgs
  induction msgs with
  | nil => intro s0; rfl
  | cons m ms ih =>
    intro s0
    show (msgsTo a ((a, ⟨sid, s0, m⟩) :: (sendSeq sid a (bumpStamp s0) ms).2)).length
      = ms.length + 1
    rw [msgsTo_cons_self, List.length_cons, ih]

theorem stampsTo_sendSeq_self (sid a : Nat) :
    ∀ (msgs : List Msg) (c : Nat),
      stampsTo a (sendSeq sid a (c % U64) msgs).2 =
        (List.range msgs.length).map (fun x => (c + x) % U64) := by
  intro msgs
  induction msgs with
  | nil => intro c; rfl
  | cons m ms ih =>
    intro c
    have hb : bumpStamp (c % U64) = (c + 1) % U64 := by
      simp [bumpStamp, Nat.mod_add_mod]
    show stampsTo a ((a, ⟨sid, c % U64, m⟩) :: (sendSeq sid a (bumpStamp (c % U64)) ms).2)
      = (List.range (ms.length + 1)).map (fun x => (c + x) % U64)
    rw [hb]
    have h1 : stampsTo a ((a, ⟨sid, c % U64, m⟩) ::
        (sendSeq sid a ((c + 1) % U64) ms).2) =
        (c % U64) :: stampsTo a (sendSeq sid a ((c + 1) % U64) ms).2 := by
      simp [stampsTo, msgsTo_cons_self]
    rw [h1, ih (c + 1), List.range_succ_eq_map, List.map_cons, List.map_map]
    have h2 : (fun x => (c + 1 + x) % U64) = ((fun x => (c + x) % U64) ∘ Nat.succ) := by
      funext x
      show (c + 1 + x) % U64 = (c + (x + 1)) % U64
      congr 1
      omega
    rw [h2]
    simp

theorem stamps_extend (c n : Nat) :
    (List.range c).map (fun x => x % U64) ++
      (List.range n).map (fun x => (c + x) % U64) =
      (List.range (c + n)).map (fun x => x % U64) := by
  rw [List.range_add, List.map_append, List.map_map]
  rfl

theorem range_map_mod (n : Nat) (h : n ≤ U64) :
    (List.range n).map (fun x => x % U64) = List.range n := by
  have h1 : ∀ x ∈ List.range n, x % U64 = x := by
    intro x hx
    exact Nat.mod_eq_of_lt (lt_of_lt_of_le (List.mem_range.mp hx) h)
  calc (List.range n).map (fun x => x % U64)
      = (List.range n).map id := List.map_congr_left h1
    _ = List.range n := List.map_id _

/-! ### send_all trace lemmas -/

theorem msgsTo_sendAll_not_mem (sid : Nat) (m : Msg) (k : Datum) (b : ClientAddrT) :
    ∀ cs : List (ClientAddrT × ClientInfo), b ∉ clientKeys cs →
      msgsTo b (cs.filterMap (fun p =>
        if notifies p.2 m k then some (p.1, ⟨sid, p.2.stamp, m⟩) else none)) = [] := by
  intro cs
  induction cs with
  | nil => intro h; rfl
  | cons p rest ih =>
    intro h
    simp only [clientKeys, List.map_cons, List.mem_cons, not_or] at h
    have hb : p.1 ≠ b := fun he => h.1 he.symm
    have hrest : b ∉ clientKeys rest := h.2
    rw [List.filterMap_cons]
    by_cases hn : notifies p.2 m k
    · rw [if_pos hn, msgsTo_cons_other _ _ _ _ hb, ih hrest]
    · rw [if_neg hn, ih hrest]

theorem msgsTo_sendAll_lookup (sid : Nat) (m : Msg) (k : Datum) (b : ClientAddrT) :
    ∀ cs : List (ClientAddrT × ClientInfo), (clientKeys cs).Nodup →
      msgsTo b (cs.filterMap (fun p =>
          if notifies p.2 m k then some (p.1, ⟨sid, p.2.stamp, m⟩) else none)) =
        (match lookupClient cs b with
         | some i => if notifies i m k then [⟨sid, i.stamp, m⟩] else []
         | none => []) := by
  intro cs
  induction cs with
  | nil => intro h; rfl
  | cons p rest ih =>
    intro hnd
    rcases p with ⟨c, i⟩
    simp only [clientKeys, List.map_cons, List.nodup_cons] at hnd
    obtain ⟨hcm, hrest⟩ := hnd
    by_cases hc : c = b
    · subst hc
      have hempty := msgsTo_sendAll_not_mem sid m k c rest hcm
      by_cases hn : notifies i m k
      · simp [List.filterMap_cons, hn, msgsTo_cons, lookupClient, hempty]
      · simp [List.filterMap_cons, hn, lookupClient, hempty]
    · by_cases hn : notifies i m k
      · simp [List.filterMap_cons, hn, msgsTo_cons, hc, lookupClient, ih hrest]
      · simp [List.filterMap_cons, hn, hc, lookupClient, ih hrest]

/-! ### commit-pass trace lemmas -/

theorem msgsTo_commit_not_mem (rf : ReadFunc) (sid : Nat) (s : SindexName)
    (b : ClientAddrT) :
    ∀ cs : List (ClientAddrT × ClientInfo), b ∉ clientKeys cs →
      msgsTo b ((cs.map (fun p => commitMsgs rf sid s p.1 p.2)).flatten) = [] := by
  intro cs
  induction cs with
  | nil => intro h; rfl
  | cons p rest ih =>
    intro h
    simp only [clientKeys, List.map_cons, List.mem_cons, not_or] at h
    have hb : b ≠ p.1 := h.1
    have hrest : b ∉ clientKeys rest := h.2
    rw [List.map_cons, List.flatten_cons, msgsTo_append,
      show commitMsgs rf sid s p.1 p.2 =
        (sendSeq sid p.1 p.2.stamp (commitDiffs rf s p.2)).2 from rfl,
      msgsTo_sendSeq_other sid p.1 b hb, List.nil_append, ih hrest]

theorem msgsTo_commit_lookup (rf : ReadFunc) (sid : Nat) (s : SindexName)
    (b : ClientAddrT) :
    ∀ cs : List (ClientAddrT × ClientInfo), (clientKeys cs).Nodup →
      msgsTo b ((cs.map (fun p => commitMsgs rf sid s p.1 p.2)).flatten) =
        (match lookupClient cs b with
         | some i => msgsTo b (commitMsgs rf sid s b i)
         | none => []) := by
  intro cs
  induction cs with
  | nil => intro h; rfl
  | cons p rest ih =>
    intro hnd
    rcases p with ⟨c, i⟩
    simp only [clientKeys, List.map_cons, List.nodup_cons] at hnd
    obtain ⟨hcm, hrest⟩ := hnd
    rw [List.map_cons, List.flatten_cons, msgsTo_append]
    by_cases hc : c = b
    · subst hc
      rw [msgsTo_commit_not_mem rf sid s c rest hcm, List.append_nil]
      simp [lookupClient]
    · rw [show commitMsgs rf sid s c i = (sendSeq sid c i.stamp (commitDiffs rf s i)).2
        from rfl, msgsTo_sendSeq_other sid c b (fun he => hc he.symm), List.nil_append,
        ih hrest]
      simp [lookupClient, hc]

/-! ### Stamp invariant preservation -/

theorem stampInv_init (sid : UuidU) (tbl : TableName) :
    StampInv (initServer sid tbl) [] := by
  refine ⟨by simp [initServer, clientKeys], ?_⟩
  intro a
  refine ⟨rfl, ?_, fun _ => rfl⟩
  intro i hi
  simp [initServer, lookupClient] at hi

theorem stampInv_mapInfo (st : ServerState) (tr : List (ClientAddrT × StampedMsg))
    (g : ClientAddrT → ClientInfo → ClientInfo)
    (hg : ∀ a i, (g a i).stamp = i.stamp)
    (h : StampInv st tr) :
    StampInv { st with clients := st.clients.map (fun p => (p.1, g p.1 p.2)) } tr := by
  obtain ⟨hnd, hinv⟩ := h
  refine ⟨?_, ?_⟩
  · show (clientKeys (st.clients.map (fun p => (p.1, g p.1 p.2)))).Nodup
    rw [clientKeys_map]
    exact hnd
  · intro a
    obtain ⟨h1, h2, h3⟩ := hinv a
    have hlu : lookupClient (st.clients.map (fun p => (p.1, g p.1 p.2))) a =
        (lookupClient st.clients a).map (g a) := lookupClient_map g st.clients a
    refine ⟨h1, ?_, ?_⟩
    · intro i hi
      rw [show ({ st with clients := st.clients.map (fun p => (p.1, g p.1 p.2)) } :
          ServerState).clients = st.clients.map (fun p => (p.1, g p.1 p.2)) from rfl,
        hlu] at hi
      cases hl : lookupClient st.clients a with
      | none =>
        rw [hl] at hi
        exact absurd hi (by simp)
      | some j =>
        rw [hl] at hi
        have hi2 : some (g a j) = some i := hi
        injection hi2 with hi3
        rw [← hi3, hg a j]
        exact h2 j hl
    · intro hnone
      rw [show ({ st with clients := st.clients.map (fun p => (p.1, g p.1 p.2)) } :
          ServerState).clients = st.clients.map (fun p => (p.1, g p.1 p.2)) from rfl,
        hlu] at hnone
      cases hl : lookupClient st.clients a with
      | none => exact h3 hl
      | some j =>
        rw [hl] at hnone
        exact absurd hnone (by simp)

theorem stampInv_addClient (st : ServerState) (tr : List (ClientAddrT × StampedMsg))
    (a : ClientAddrT) (r : DatumRange) (h : StampInv st tr) :
    StampInv (addClientState st a r) tr := by
  unfold addClientState
  cases hl : lookupClient st.clients a with
  | some j =>
    exact stampInv_mapInfo st tr
      (fun b i => if b = a then { i with regions := i.regions ++ [r] } else i)
      (by
        intro b i
        by_cases hb : b = a <;> simp [hb]) h
  | none =>
    obtain ⟨hnd, hinv⟩ := h
    have hnm : a ∉ clientKeys st.clients := lookupClient_none_not_mem _ _ hl
    refine ⟨?_, ?_⟩
    · show (clientKeys (st.clients ++
        [(a, { stamp := 0, regions := [r], limit_clients := [] })])).Nodup
      rw [show clientKeys (st.clients ++
          [(a, ({ stamp := 0, regions := [r], limit_clients := [] } : ClientInfo))]) =
          clientKeys st.clients ++ [a] from by simp [clientKeys]]
      rw [List.nodup_append]
      exact ⟨hnd, List.nodup_singleton a, by simpa using hnm⟩
    · intro b
      obtain ⟨h1, h2, h3⟩ := hinv b
      refine ⟨h1, ?_, ?_⟩
      · intro i hi
        rw [show ({ st with clients := st.clients ++
            [(a, ({ stamp := 0, regions := [r], limit_clients := [] } : ClientInfo))] } :
            ServerState).clients = st.clients ++
            [(a, ({ stamp := 0, regions := [r], limit_clients := [] } : ClientInfo))]
            from rfl] at hi
        cases hb : lookupClient st.clients b with
        | some j =>
          rw [lookupClient_append_some _ _ _ _ hb] at hi
          have hi2 : j = i := by injection hi
          rw [← hi2]
          exact h2 j hb
        | none =>
          rw [lookupClient_append_none _ _ _ hb] at hi
          by_cases hab : a = b
          · rw [show lookupClient
                [(a, ({ stamp := 0, regions := [r], limit_clients := [] } : ClientInfo))] b =
                some { stamp := 0, regions := [r], limit_clients := [] } from by
                simp [lookupClient, hab]] at hi
            have hi2 : ({ stamp := 0, regions := [r], limit_clients := [] } : ClientInfo)
                = i := by injection hi
            rw [← hi2, h3 hb]
            rfl
          · rw [show lookupClient
                [(a, ({ stamp := 0, regions := [r], limit_clients := [] } : ClientInfo))] b =
                none from by simp [lookupClient, hab]] at hi
            exact absurd hi (by simp)
      · intro hnone
        rw [show ({ st with clients := st.clients ++
            [(a, ({ stamp := 0, regions := [r], limit_clients := [] } : ClientInfo))] } :
            ServerState).clients = st.clients ++
            [(a, ({ stamp := 0, regions := [r], limit_clients := [] } : ClientInfo))]
            from rfl] at hnone
        cases hb : lookupClient st.clients b with
        | some j =>
          rw [lookupClient_append_some _ _ _ _ hb] at hnone
          exact absurd hnone (by simp)
        | none => exact h3 hb

theorem stampInv_sendOne (st : ServerState) (tr : List (ClientAddrT × StampedMsg))
    (a : ClientAddrT) (m : Msg) (h : StampInv st tr) :
    StampInv (sendOne st a m).1 (tr ++ (sendOne st a m).2) := by
  obtain ⟨hnd, hinv⟩ := h
  unfold sendOne
  cases hl : lookupClient st.clients a with
  | none =>
    simpa using And.intro hnd hinv
  | some i =>
    refine ⟨?_, ?_⟩
    · show (clientKeys (updateClient st.clients a
        (fun j => { j with stamp := bumpStamp j.stamp }))).Nodup
      rw [clientKeys_update]
      exact hnd
    · intro b
      obtain ⟨h1, h2, h3⟩ := hinv b
      have hlu : lookupClient (updateClient st.clients a
          (fun j => { j with stamp := bumpStamp j.stamp })) b =
          if b = a then (lookupClient st.clients b).map
            (fun j => { j with stamp := bumpStamp j.stamp })
          else lookupClient st.clients b :=
        lookupClient_update st.clients a b _
      by_cases hb : b = a
      · subst hb
        rw [if_pos rfl, hl] at hlu
        have hc := h2 i hl
        have hmsgs : msgsTo b (tr ++ [(b, ⟨st.sid, i.stamp, m⟩)]) =
            msgsTo b tr ++ [⟨st.sid, i.stamp, m⟩] := by
          rw [msgsTo_append, msgsTo_cons_self]
          rfl
        refine ⟨?_, ?_, ?_⟩
        · rw [show stampsTo b (tr ++ [(b, (⟨st.sid, i.stamp, m⟩ : StampedMsg))]) =
              stampsTo b tr ++ [i.stamp] from by
              rw [stampsTo_append]; simp [stampsTo, msgsTo_cons_self, msgsTo]]
          rw [h1, hc, hmsgs, List.length_append]
          rw [show (msgsTo b tr).length + [(⟨st.sid, i.stamp, m⟩ : StampedMsg)].length =
              (msgsTo b tr).length + 1 from rfl]
          rw [List.range_succ, List.map_append]
          rfl
        · intro j hj
          rw [hlu] at hj
          have hj2 : ({ i with stamp := bumpStamp i.stamp } : ClientInfo) = j := by
            injection hj
          rw [← hj2]
          show bumpStamp i.stamp =
            (msgsTo b (tr ++ [(b, (⟨st.sid, i.stamp, m⟩ : StampedMsg))])).length % U64
          rw [hmsgs, List.length_append, hc]
          show ((msgsTo b tr).length % U64 + 1) % U64 = ((msgsTo b tr).length + 1) % U64
          rw [Nat.mod_add_mod]
        · intro hnone
          rw [hlu] at hnone
          exact absurd hnone (by simp)
      · rw [if_neg hb] at hlu
        have hmsgs : msgsTo b (tr ++ [(a, ⟨st.sid, i.stamp, m⟩)]) = msgsTo b tr := by
          rw [msgsTo_append, msgsTo_cons_other _ _ _ _ (fun he => hb he.symm)]
          simp [msgsTo]
        have hstamps : stampsTo b (tr ++ [(a, ⟨st.sid, i.stamp, m⟩)]) = stampsTo b tr := by
          simp [stampsTo, hmsgs]
        refine ⟨?_, ?_, ?_⟩
        · rw [hstamps, hmsgs, h1]
        · intro j hj
          rw [hlu] at hj
          rw [hmsgs]
          exact h2 j hj
        · intro hnone
          rw [hlu] at hnone
          rw [hmsgs]
          exact h3 hnone

theorem lookupClient_sendAllClients (st : ServerState) (m : Msg) (k : Datum)
    (b : ClientAddrT) :
    lookupClient (sendAllClients st m k) b =
      (lookupClient st.clients b).map (sendAllInfo m k) :=
  lookupClient_map (fun _ i => sendAllInfo m k i) st.clients b

theorem clientKeys_sendAllClients (st : ServerState) (m : Msg) (k : Datum) :
    clientKeys (sendAllClients st m k) = clientKeys st.clients :=
  clientKeys_map (fun _ i => sendAllInfo m k i) st.clients

theorem stampInv_sendAll (st : ServerState) (tr : List (ClientAddrT × StampedMsg))
    (m : Msg) (k : Datum) (h : StampInv st tr) :
    StampInv { st with clients := sendAllClients st m k } (tr ++ sendAllMsgs st m k) := by
  obtain ⟨hnd, hinv⟩ := h
  refine ⟨?_, ?_⟩
  · show (clientKeys (sendAllClients st m k)).Nodup
    rw [clientKeys_sendAllClients]
    exact hnd
  · intro b
    obtain ⟨h1, h2, h3⟩ := hinv b
    have hlu : lookupClient (sendAllClients st m k) b =
        (lookupClient st.clients b).map (sendAllInfo m k) :=
      lookupClient_sendAllClients st m k b
    have hmsg := msgsTo_sendAll_lookup st.sid m k b st.clients hnd
    cases hl : lookupClient st.clients b with
    | none =>
      rw [hl] at hmsg hlu
      have hseg : msgsTo b (sendAllMsgs st m k) = [] := hmsg
      have hmsgs : msgsTo b (tr ++ sendAllMsgs st m k) = msgsTo b tr := by
        rw [msgsTo_append, hseg, List.append_nil]
      refine ⟨?_, ?_, ?_⟩
      · rw [show stampsTo b (tr ++ sendAllMsgs st m k) = stampsTo b tr from by
          simp [stampsTo, hmsgs], hmsgs, h1]
      · intro j hj
        rw [show ({ st with clients := sendAllClients st m k } : ServerState).clients =
          sendAllClients st m k from rfl, hlu] at hj
        exact absurd hj (by simp)
      · intro _
        rw [hmsgs]
        exact h3 hl
    | some i =>
      rw [hl] at hmsg hlu
      have hc := h2 i hl
      by_cases hn : notifies i m k
      · have hseg : msgsTo b (sendAllMsgs st m k) = [⟨st.sid, i.stamp, m⟩] := by
          have hseg0 : msgsTo b (sendAllMsgs st m k) =
              (if notifies i m k then [⟨st.sid, i.stamp, m⟩] else []) := hmsg
          rw [hseg0, if_pos hn]
        have hmsgs : msgsTo b (tr ++ sendAllMsgs st m k) =
            msgsTo b tr ++ [⟨st.sid, i.stamp, m⟩] := by
          rw [msgsTo_append, hseg]
        refine ⟨?_, ?_, ?_⟩
        · rw [show stampsTo b (tr ++ sendAllMsgs st m k) = stampsTo b tr ++ [i.stamp] from by
            simp [stampsTo, hmsgs]]
          rw [h1, hc, hmsgs, List.length_append]
          rw [show (msgsTo b tr).length + [(⟨st.sid, i.stamp, m⟩ : StampedMsg)].length =
              (msgsTo b tr).length + 1 from rfl]
          rw [List.range_succ, List.map_append]
          rfl
        · intro j hj
          rw [show ({ st with clients := sendAllClients st m k } : ServerState).clients =
            sendAllClients st m k from rfl, hlu] at hj
          have hj2 : some (sendAllInfo m k i) = some j := hj
          have hj3 : sendAllInfo m k i = j := by injection hj2
          rw [← hj3]
          show (sendAllInfo m k i).stamp =
            (msgsTo b (tr ++ sendAllMsgs st m k)).length % U64
          rw [show sendAllInfo m k i = { i with stamp := bumpStamp i.stamp } from by
            simp [sendAllInfo, hn]]
          rw [hmsgs, List.length_append, hc]
          show ((msgsTo b tr).length % U64 + 1) % U64 = ((msgsTo b tr).length + 1) % U64
          rw [Nat.mod_add_mod]
        · intro hnone
          rw [show ({ st with clients := sendAllClients st m k } : ServerState).clients =
            sendAllClients st m k from rfl, hlu] at hnone
          exact absurd hnone (by simp)
      · have hseg : msgsTo b (sendAllMsgs st m k) = [] := by
          have hseg0 : msgsTo b (sendAllMsgs st m k) =
              (if notifies i m k then [⟨st.sid, i.stamp, m⟩] else []) := hmsg
          rw [hseg0, if_neg hn]
        have hmsgs : msgsTo b (tr ++ sendAllMsgs st m k) = msgsTo b tr := by
          rw [msgsTo_append, hseg, List.append_nil]
        refine ⟨?_, ?_, ?_⟩
        · rw [show stampsTo b (tr ++ sendAllMsgs st m k) = stampsTo b tr from by
            simp [stampsTo, hmsgs], hmsgs, h1]
        · intro j hj
          rw [show ({ st with clients := sendAllClients st m k } : ServerState).clients =
            sendAllClients st m k from rfl, hlu] at hj
          have hj2 : some (sendAllInfo m k i) = some j := hj
          have hj3 : sendAllInfo m k i = j := by injection hj2
          rw [← hj3, show sendAllInfo m k i = i from by simp [sendAllInfo, hn], hmsgs]
          exact hc
        · intro hnone
          rw [show ({ st with clients := sendAllClients st m k } : ServerState).clients =
            sendAllClients st m k from rfl, hlu] at hnone
          exact absurd hnone (by simp)

theorem stampInv_addLimitClient (rf : ReadFunc) (st : ServerState)
    (tr : List (ClientAddrT × StampedMsg)) (a : ClientAddrT) (r : DatumRange)
    (sub : UuidU) (l : LimitT) (h : StampInv st tr) :
    StampInv (addLimitClientState rf st a r sub l).1
      (tr ++ (addLimitClientState rf st a r sub l).2) := by
  have h1 : StampInv (addClientState st a r) tr := stampInv_addClient st tr a r h
  have h2 : StampInv (addMgr (addClientState st a r) a
      { table := st.table, sindex := l.sindex, parent_client := a, uuid := sub,
        spec := l, data := initWindow rf st.table l, added := [], deleted := [] }) tr := by
    have := stampInv_mapInfo (addClientState st a r) tr
      (fun b i => if b = a then { i with limit_clients := i.limit_clients ++
        [{ table := st.table, sindex := l.sindex, parent_client := a, uuid := sub,
           spec := l, data := initWindow rf st.table l, added := [],
           deleted := [] }] } else i)
      (by
        intro b i
        by_cases hb : b = a <;> simp [hb]) h1
    exact this
  exact stampInv_sendOne _ tr a (Msg.limit_start sub (initWindow rf st.table l)) h2

theorem stampInv_commitStep (rf : ReadFunc) (st : ServerState)
    (tr : List (ClientAddrT × StampedMsg)) (s : SindexName) (h : StampInv st tr) :
    StampInv (commitStep rf st s).1 (tr ++ (commitStep rf st s).2) := by
  obtain ⟨hnd, hinv⟩ := h
  refine ⟨?_, ?_⟩
  · show (clientKeys (st.clients.map
      (fun p => (p.1, commitInfo rf st.sid s p.1 p.2)))).Nodup
    rw [clientKeys_map]
    exact hnd
  · intro b
    obtain ⟨h1, h2, h3⟩ := hinv b
    have hlu : lookupClient (st.clients.map
        (fun p => (p.1, commitInfo rf st.sid s p.1 p.2))) b =
        (lookupClient st.clients b).map (commitInfo rf st.sid s b) :=
      lookupClient_map (commitInfo rf st.sid s) st.clients b
    have hmsg := msgsTo_commit_lookup rf st.sid s b st.clients hnd
    cases hl : lookupClient st.clients b with
    | none =>
      rw [hl] at hmsg hlu
      have hseg : msgsTo b ((commitStep rf st s).2) = [] := hmsg
      have hmsgs : msgsTo b (tr ++ (commitStep rf st s).2) = msgsTo b tr := by
        rw [msgsTo_append, hseg, List.append_nil]
      refine ⟨?_, ?_, ?_⟩
      · rw [show stampsTo b (tr ++ (commitStep rf st s).2) = stampsTo b tr from by
          simp [stampsTo, hmsgs], hmsgs, h1]
      · intro j hj
        rw [show ((commitStep rf st s).1).clients = st.clients.map
          (fun p => (p.1, commitInfo rf st.sid s p.1 p.2)) from rfl, hlu] at hj
        exact absurd hj (by simp)
      · intro _
        rw [hmsgs]
        exact h3 hl
    | some i =>
      rw [hl] at hmsg hlu
      have hc := h2 i hl
      have hseg : msgsTo b (tr ++ (commitStep rf st s).2) =
          msgsTo b tr ++ msgsTo b (commitMsgs rf st.sid s b i) := by
        rw [msgsTo_append]
        exact congrArg _ hmsg
      have hcount : (msgsTo b (commitMsgs rf st.sid s b i)).length =
          (commitDiffs rf s i).length :=
        msgsTo_sendSeq_self st.sid b (commitDiffs rf s i) i.stamp
      have hstamps : stampsTo b (commitMsgs rf st.sid s b i) =
          (List.range (commitDiffs rf s i).length).map
            (fun x => ((msgsTo b tr).length + x) % U64) := by
        have hss := stampsTo_sendSeq_self st.sid b (commitDiffs rf s i)
          (msgsTo b tr).length
        rw [← hc] at hss
        exact hss
      refine ⟨?_, ?_, ?_⟩
      · rw [show stampsTo b (tr ++ (commitStep rf st s).2) =
            stampsTo b tr ++ stampsTo b (commitMsgs rf st.sid s b i) from by
            simp only [stampsTo, hseg, List.map_append]]
        rw [h1, hstamps, stamps_extend, hseg, List.length_append, hcount]
      · intro j hj
        rw [show ((commitStep rf st s).1).clients = st.clients.map
          (fun p => (p.1, commitInfo rf st.sid s p.1 p.2)) from rfl, hlu] at hj
        have hj2 : some (commitInfo rf st.sid s b i) = some j := hj
        have hj3 : commitInfo rf st.sid s b i = j := by injection hj2
        rw [← hj3]
        show (sendSeq st.sid b i.stamp (commitDiffs rf s i)).1 =
          (msgsTo b (tr ++ (commitStep rf st s).2)).length % U64
        have hfst := sendSeq_fst st.sid b (commitDiffs rf s i) (msgsTo b tr).length
        rw [← hc] at hfst
        rw [hfst, hseg, List.length_append, hcount]
      · intro hnone
        rw [show ((commitStep rf st s).1).clients = st.clients.map
          (fun p => (p.1, commitInfo rf st.sid s p.1 p.2)) from rfl, hlu] at hnone
        exact absurd hnone (by simp)

theorem stampInv_step (rf : ReadFunc) (st : ServerState)
    (tr : List (ClientAddrT × StampedMsg)) (op : ServerOp) (h : StampInv st tr) :
    StampInv (stepOp rf st op).1 (tr ++ (stepOp rf st op).2) := by
  cases op with
  | add_client a r =>
    show StampInv (addClientState st a r) (tr ++ [])
    rw [List.append_nil]
    exact stampInv_addClient st tr a r h
  | add_limit_client a r sub l => exact stampInv_addLimitClient rf st tr a r sub l h
  | send_all m k => exact stampInv_sendAll st tr m k h
  | stage_add s key val =>
    show StampInv (stageAdd st s key val) (tr ++ [])
    rw [List.append_nil]
    exact stampInv_mapInfo st tr (fun _ i => { i with limit_clients := i.limit_clients.map (fun m2 => if m2.sindex = s then m2.add key val else m2) }) (fun _ _ => rfl) h
  | stage_del s key =>
    show StampInv (stageDel st s key) (tr ++ [])
    rw [List.append_nil]
    exact stampInv_mapInfo st tr (fun _ i => { i with limit_clients := i.limit_clients.map (fun m2 => if m2.sindex = s then m2.del key else m2) }) (fun _ _ => rfl) h
  | commit_limits s => exact stampInv_commitStep rf st tr s h

theorem stampInv_runOps (rf : ReadFunc) :
    ∀ (ops : List ServerOp) (st : ServerState) (tr : List (ClientAddrT × StampedMsg)),
      StampInv st tr → StampInv (runOps rf st ops).1 (tr ++ (runOps rf st ops).2) := by
  intro ops
  induction ops with
  | nil =>
    intro st tr h
    show StampInv st (tr ++ [])
    rw [List.append_nil]
    exact h
  | cons op rest ih =>
    intro st tr h
    show StampInv (runOps rf (stepOp rf st op).1 rest).1
      (tr ++ ((stepOp rf st op).2 ++ (runOps rf (stepOp rf st op).1 rest).2))
    rw [← List.append_assoc]
    exact ih (stepOp rf st op).1 (tr ++ (stepOp rf st op).2) (stampInv_step rf st tr op h)

/-! ### Claim theorems C1, C2 -/

/-- C1: along every run of the server from construction, for every client
address, the sequence of stamps transmitted to that (server, client) pair is
exactly `0, 1, 2, ...` with no gaps (as long as at most `2^64` transmissions
happened — the stamp is a `uint64_t`); and `add_client` creates a fresh
client entry with its stamp counter at 0.  Each transmission carries the
pre-increment stamp — see `sendSeq`, `sendAllMsgs`. -/
theorem send_all_stamps_gapfree (rf : ReadFunc) (sid : UuidU) (tbl : TableName)
    (ops : List ServerOp) (a : ClientAddrT)
    (h : (msgsTo a (serverTrace rf sid tbl ops)).length ≤ U64) :
    stampsTo a (serverTrace rf sid tbl ops) =
      List.range (msgsTo a (serverTrace rf sid tbl ops)).length ∧
    (∀ (st : ServerState) (r : DatumRange), lookupClient st.clients a = none →
      lookupClient (addClientState st a r).clients a =
        some { stamp := 0, regions := [r], limit_clients := [] }) := by
  constructor
  · have hinv := stampInv_runOps rf ops (initServer sid tbl) [] (stampInv_init sid tbl)
    have h1 : stampsTo a (serverTrace rf sid tbl ops) =
        (List.range (msgsTo a (serverTrace rf sid tbl ops)).length).map
          (fun x => x % U64) := (hinv.2 a).1
    rw [h1, range_map_mod _ h]
  · intro st r hnone
    have heq : addClientState st a r = { st with clients := st.clients ++
        [(a, { stamp := 0, regions := [r], limit_clients := [] })] } := by
      unfold addClientState
      rw [hnone]
    rw [heq]
    rw [show ({ st with clients := st.clients ++
        [(a, ({ stamp := 0, regions := [r], limit_clients := [] } : ClientInfo))] } :
        ServerState).clients = st.clients ++
        [(a, ({ stamp := 0, regions := [r], limit_clients := [] } : ClientInfo))] from rfl]
    rw [lookupClient_append_none _ _ _ hnone]
    simp [lookupClient]

/-- Witness for C1: one client, two broadcast changes; the transmitted
stamps are exactly the range of the transmission count, and a fresh
`add_client` entry carries stamp 0. -/
theorem send_all_stamps_gapfree_witness :
    stampsTo 1 (serverTrace rfEmptyRead 5 0 opsTwoSends) =
      List.range (msgsTo 1 (serverTrace rfEmptyRead 5 0 opsTwoSends)).length ∧
    lookupClient (addClientState (initServer 5 0) 1 rangeFull).clients 1 =
      some { stamp := 0, regions := [rangeFull], limit_clients := [] } :=
  ⟨(send_all_stamps_gapfree rfEmptyRead 5 0 opsTwoSends 1 (by decide)).1,
   (send_all_stamps_gapfree rfEmptyRead 5 0 opsTwoSends 1 (by decide)).2
     (initServer 5 0) rangeFull (by decide)⟩

/-- C2: for every reachable server state, a `send_all` whose message payload
filter excludes a live client (e.g. a `LimitChange` whose sub id belongs to
a different subscription) sends no message to that client and leaves the
client's entry — in particular its stamp counter — unchanged. -/
theorem send_all_excluded_client_framed (rf : ReadFunc) (sid : UuidU)
    (tbl : TableName) (ops : List ServerOp) (m : Msg) (k : Datum)
    (a : ClientAddrT) (i : ClientInfo)
    (h1 : lookupClient (serverAfter rf sid tbl ops).clients a = some i)
    (h2 : payloadAllows i m = false) :
    lookupClient ((stepOp rf (serverAfter rf sid tbl ops) (.send_all m k)).1).clients a =
      some i ∧
    msgsTo a ((stepOp rf (serverAfter rf sid tbl ops) (.send_all m k)).2) = [] := by
  have hnd : (clientKeys (serverAfter rf sid tbl ops).clients).Nodup :=
    (stampInv_runOps rf ops (initServer sid tbl) [] (stampInv_init sid tbl)).1
  have hnot : notifies i m k = false := by
    simp [notifies, h2]
  have hnot2 : ¬(notifies i m k = true) := by
    rw [hnot]
    exact Bool.false_ne_true
  constructor
  · show lookupClient (sendAllClients (serverAfter rf sid tbl ops) m k) a = some i
    rw [lookupClient_sendAllClients, h1]
    show some (sendAllInfo m k i) = some i
    rw [show sendAllInfo m k i = i from by simp [sendAllInfo, hnot2]]
  · show msgsTo a (sendAllMsgs (serverAfter rf sid tbl ops) m k) = []
    have hmsg := msgsTo_sendAll_lookup (serverAfter rf sid tbl ops).sid m k a
      (serverAfter rf sid tbl ops).clients hnd
    rw [h1] at hmsg
    have hmsg2 : msgsTo a (sendAllMsgs (serverAfter rf sid tbl ops) m k) =
        (if notifies i m k then [⟨(serverAfter rf sid tbl ops).sid, i.stamp, m⟩]
         else []) := hmsg
    rw [hmsg2, if_neg hnot2]

/-- Witness for C2: after registering client 1 with the full range, a
`send_all` carrying a `LimitChange` for a subscription nobody owns leaves
client 1 untouched and sends it nothing. -/
theorem send_all_excluded_client_framed_witness :
    lookupClient ((stepOp rfEmptyRead (serverAfter rfEmptyRead 5 0 opsOneClient)
        (.send_all msgForeignLC 0)).1).clients 1 = some infoFresh ∧
    msgsTo 1 ((stepOp rfEmptyRead (serverAfter rfEmptyRead 5 0 opsOneClient)
        (.send_all msgForeignLC 0)).2) = [] :=
  send_all_excluded_client_framed rfEmptyRead 5 0 opsOneClient msgForeignLC 0 1 infoFresh
    (by decide) (by decide)

/-! ### LimitStart-before-LimitChange scan lemmas -/

theorem lsBeforeLc_append (sub : UuidU) (xs ys : List (ClientAddrT × StampedMsg))
    (b : Bool) :
    lsBeforeLc sub (xs ++ ys) b =
      (lsBeforeLc sub xs b &&
        lsBeforeLc sub ys (b || xs.any (isLimitStartFor sub))) := by
  induction xs generalizing b with
  | nil => simp [lsBeforeLc]
  | cons e r ih =>
    show ((!(isLimitChangeFor sub e) || b) &&
        lsBeforeLc sub (r ++ ys) (b || isLimitStartFor sub e)) =
      (((!(isLimitChangeFor sub e) || b) &&
          lsBeforeLc sub r (b || isLimitStartFor sub e)) &&
        lsBeforeLc sub ys (b || (e :: r).any (isLimitStartFor sub)))
    rw [ih]
    simp [List.any_cons, Bool.and_assoc, Bool.or_assoc]

theorem lsBeforeLc_true (sub : UuidU) :
    ∀ l : List (ClientAddrT × StampedMsg), lsBeforeLc sub l true = true := by
  intro l
  induction l with
  | nil => rfl
  | cons e r ih => simp [lsBeforeLc, ih]

theorem lsBeforeLc_of_noLC (sub : UuidU) :
    ∀ (l : List (ClientAddrT × StampedMsg)) (b : Bool),
      l.any (isLimitChangeFor sub) = false → lsBeforeLc sub l b = true := by
  intro l
  induction l with
  | nil => intro b _; rfl
  | cons e r ih =>
    intro b h
    rw [List.any_cons] at h
    obtain ⟨h1, h2⟩ := Bool.or_eq_false_iff.mp h
    show ((!(isLimitChangeFor sub e) || b) &&
      lsBeforeLc sub r (b || isLimitStartFor sub e)) = true
    rw [h1, ih _ h2]
    rfl

/-! ### Subscription-registration preservation lemmas -/

theorem anyHasSub_map (sub : UuidU) (g : ClientAddrT → ClientInfo → ClientInfo)
    (hg : ∀ a i, (g a i).hasSub sub = i.hasSub sub) :
    ∀ cs : List (ClientAddrT × ClientInfo),
      ((cs.map (fun p => (p.1, g p.1 p.2))).any (fun p => p.2.hasSub sub)) =
        cs.any (fun p => p.2.hasSub sub) := by
  intro cs
  induction cs with
  | nil => rfl
  | cons p rest ih =>
    simp only [List.map_cons, List.any_cons, ih, hg]

theorem subRegistered_addClient (sub : UuidU) (st : ServerState) (a : ClientAddrT)
    (r : DatumRange) :
    subRegistered sub (addClientState st a r) = subRegistered sub st := by
  unfold addClientState
  cases hl : lookupClient st.clients a with
  | some j =>
    exact anyHasSub_map sub
      (fun b i => if b = a then { i with regions := i.regions ++ [r] } else i)
      (by
        intro b i
        by_cases hb : b = a <;> simp [hb, ClientInfo.hasSub]) st.clients
  | none =>
    show (st.clients ++
        [(a, ({ stamp := 0, regions := [r], limit_clients := [] } : ClientInfo))]).any
        (fun p => p.2.hasSub sub) = st.clients.any (fun p => p.2.hasSub sub)
    rw [List.any_append]
    simp [ClientInfo.hasSub]

theorem hasSub_stamp_bump (sub : UuidU) (i : ClientInfo) :
    ({ i with stamp := bumpStamp i.stamp } : ClientInfo).hasSub sub = i.hasSub sub := rfl

theorem subRegistered_sendOne (sub : UuidU) (st : ServerState) (a : ClientAddrT)
    (m : Msg) :
    subRegistered sub (sendOne st a m).1 = subRegistered sub st := by
  unfold sendOne
  cases hl : lookupClient st.clients a with
  | none => rfl
  | some i =>
    exact anyHasSub_map sub
      (fun b j => if b = a then { j with stamp := bumpStamp j.stamp } else j)
      (by
        intro b j
        by_cases hb : b = a <;> simp [hb, ClientInfo.hasSub]) st.clients

theorem subRegistered_sendAll (sub : UuidU) (st : ServerState) (m : Msg) (k : Datum) :
    subRegistered sub { st with clients := sendAllClients st m k } =
      subRegistered sub st := by
  show (st.clients.map (fun p => (p.1, sendAllInfo m k p.2))).any
      (fun p => p.2.hasSub sub) = st.clients.any (fun p => p.2.hasSub sub)
  exact anyHasSub_map sub (fun _ i => sendAllInfo m k i)
    (by
      intro b j
      unfold sendAllInfo
      by_cases hn : notifies j m k <;> simp [hn, ClientInfo.hasSub]) st.clients

theorem anyUuid_map (sub : UuidU) (g : LimitManager → LimitManager)
    (hg : ∀ m2, (g m2).uuid = m2.uuid) :
    ∀ ms : List LimitManager,
      ((ms.map g).any (fun m2 => m2.uuid = sub)) = ms.any (fun m2 => m2.uuid = sub) := by
  intro ms
  induction ms with
  | nil => rfl
  | cons m2 rest ih => simp only [List.map_cons, List.any_cons, ih, hg]

theorem commitMgrs_anyUuid (rf : ReadFunc) (s : SindexName) (sub : UuidU) :
    ∀ ms : List LimitManager,
      (((commitMgrs rf s ms).1).any (fun m2 => m2.uuid = sub)) =
        ms.any (fun m2 => m2.uuid = sub) := by
  intro ms
  induction ms with
  | nil => rfl
  | cons m2 rest ih =>
    show ((if m2.sindex = s then
        ((m2.commit rf).mgr :: (commitMgrs rf s rest).1, (m2.commit rf).diffs ++ (commitMgrs rf s rest).2)
      else (m2 :: (commitMgrs rf s rest).1, (commitMgrs rf s rest).2)).1).any
        (fun m3 => m3.uuid = sub) = (m2 :: rest).any (fun m3 => m3.uuid = sub)
    by_cases hs : m2.sindex = s
    · rw [if_pos hs]
      show ((m2.commit rf).mgr :: (commitMgrs rf s rest).1).any (fun m3 => m3.uuid = sub) = _
      rw [List.any_cons, List.any_cons, ih]
      rfl
    · rw [if_neg hs]
      show (m2 :: (commitMgrs rf s rest).1).any (fun m3 => m3.uuid = sub) = _
      rw [List.any_cons, List.any_cons, ih]

theorem subRegistered_commitStep (rf : ReadFunc) (st : ServerState) (s : SindexName)
    (sub : UuidU) :
    subRegistered sub (commitStep rf st s).1 = subRegistered sub st := by
  show (st.clients.map (fun p => (p.1, commitInfo rf st.sid s p.1 p.2))).any
      (fun p => p.2.hasSub sub) = st.clients.any (fun p => p.2.hasSub sub)
  exact anyHasSub_map sub (commitInfo rf st.sid s)
    (by
      intro b j
      show ((commitMgrs rf s j.limit_clients).1).any (fun m2 => m2.uuid = sub) =
        j.limit_clients.any (fun m2 => m2.uuid = sub)
      exact commitMgrs_anyUuid rf s sub j.limit_clients) st.clients

/-! ### Emission-source lemmas -/

theorem sendAll_lc_registered (st : ServerState) (m : Msg) (k : Datum) (sub : UuidU)
    (h : (sendAllMsgs st m k).any (isLimitChangeFor sub) = true) :
    subRegistered sub st = true := by
  obtain ⟨q, hq, hlc⟩ := List.any_eq_true.mp h
  obtain ⟨p, hp, hfq⟩ := List.mem_filterMap.mp hq
  by_cases hn : notifies p.2 m k
  · rw [if_pos hn] at hfq
    have hq2 : q = (p.1, ⟨st.sid, p.2.stamp, m⟩) := by
      injection hfq with h2
      exact h2.symm
    subst hq2
    cases hm : m with
    | stop => rw [hm] at hlc; exact absurd hlc (by simp [isLimitChangeFor])
    | change o n => rw [hm] at hlc; exact absurd hlc (by simp [isLimitChangeFor])
    | limit_start s2 sd => rw [hm] at hlc; exact absurd hlc (by simp [isLimitChangeFor])
    | limit_change s2 ok nv =>
      rw [hm] at hlc hn
      have hs2 : s2 = sub := by
        have := hlc
        simp only [isLimitChangeFor] at this
        exact of_decide_eq_true this
      subst hs2
      simp only [notifies, Bool.and_eq_true] at hn
      have hhs : p.2.hasSub s2 = true := hn.2
      exact List.any_eq_true.mpr ⟨p, hp, hhs⟩
  · rw [if_neg hn] at hfq
    exact absurd hfq (by simp)

theorem commit_diff_shape (m2 : LimitManager) (rf : ReadFunc) :
    ∀ d ∈ (m2.commit rf).diffs, ∃ ok nv, d = Msg.limit_change m2.uuid ok nv := by
  intro d hd
  rcases List.mem_append.mp hd with h1 | h2
  · obtain ⟨e, _, he⟩ := List.mem_map.mp h1
    exact ⟨some e.1, none, he.symm⟩
  · obtain ⟨e, _, he⟩ := List.mem_map.mp h2
    exact ⟨none, some e, he.symm⟩

theorem commitMgrs_diff_mem (rf : ReadFunc) (s : SindexName) :
    ∀ (ms : List LimitManager) (d : Msg), d ∈ (commitMgrs rf s ms).2 →
      ∃ m2 ∈ ms, d ∈ (m2.commit rf).diffs := by
  intro ms
  induction ms with
  | nil => intro d hd; exact absurd hd (by simp [commitMgrs])
  | cons m2 rest ih =>
    intro d hd
    have hd0 : d ∈ ((if m2.sindex = s then
        ((m2.commit rf).mgr :: (commitMgrs rf s rest).1,
          (m2.commit rf).diffs ++ (commitMgrs rf s rest).2)
      else (m2 :: (commitMgrs rf s rest).1, (commitMgrs rf s rest).2)).2) := hd
    by_cases hs : m2.sindex = s
    · rw [if_pos hs] at hd0
      have hd2 : d ∈ (m2.commit rf).diffs ++ (commitMgrs rf s rest).2 := hd0
      rcases List.mem_append.mp hd2 with h1 | h2
      · exact ⟨m2, List.mem_cons_self _ _, h1⟩
      · obtain ⟨m3, hm3, hdm3⟩ := ih d h2
        exact ⟨m3, List.mem_cons_of_mem _ hm3, hdm3⟩
    · rw [if_neg hs] at hd0
      have hd2 : d ∈ (commitMgrs rf s rest).2 := hd0
      obtain ⟨m3, hm3, hdm3⟩ := ih d hd2
      exact ⟨m3, List.mem_cons_of_mem _ hm3, hdm3⟩

theorem commit_lc_registered (rf : ReadFunc) (st : ServerState) (s : SindexName)
    (sub : UuidU)
    (h : ((commitStep rf st s).2).any (isLimitChangeFor sub) = true) :
    subRegistered sub st = true := by
  obtain ⟨q, hq, hlc⟩ := List.any_eq_true.mp h
  obtain ⟨seg, hseg, hqseg⟩ := List.mem_flatten.mp hq
  obtain ⟨p, hp, hpseg⟩ := List.mem_map.mp hseg
  rw [← hpseg] at hqseg
  obtain ⟨_, hmsg⟩ := sendSeq_mem st.sid p.1 (commitDiffs rf s p.2) p.2.stamp q hqseg
  obtain ⟨m2, hm2, hdm2⟩ := commitMgrs_diff_mem rf s p.2.limit_clients q.2.msg hmsg
  obtain ⟨ok, nv, hshape⟩ := commit_diff_shape m2 rf q.2.msg hdm2
  have hu : m2.uuid = sub := by
    rcases q with ⟨qa, ⟨qsrv, qstamp, qmsg⟩⟩
    have hshape2 : qmsg = Msg.limit_change m2.uuid ok nv := hshape
    rw [hshape2] at hlc
    simp only [isLimitChangeFor] at hlc
    exact of_decide_eq_true hlc
  have hhs : p.2.hasSub sub = true :=
    List.any_eq_true.mpr ⟨m2, hm2, by rw [hu]; simp⟩
  exact List.any_eq_true.mpr ⟨p, hp, hhs⟩

theorem sendOne_msgs (st : ServerState) (a : ClientAddrT) (m : Msg) :
    ∀ q ∈ (sendOne st a m).2, q.2.msg = m := by
  intro q hq
  unfold sendOne at hq
  cases hl : lookupClient st.clients a with
  | none => rw [hl] at hq; exact absurd hq (by simp)
  | some i =>
    rw [hl] at hq
    have hq2 : q = (a, ⟨st.sid, i.stamp, m⟩) := List.mem_singleton.mp hq
    rw [hq2]

theorem addClient_lookup_self (st : ServerState) (a : ClientAddrT) (r : DatumRange) :
    ∃ i, lookupClient (addClientState st a r).clients a = some i := by
  unfold addClientState
  cases hl : lookupClient st.clients a with
  | some j =>
    refine ⟨{ j with regions := j.regions ++ [r] }, ?_⟩
    show lookupClient (updateClient st.clients a
      (fun i => { i with regions := i.regions ++ [r] })) a = _
    rw [lookupClient_update, if_pos rfl, hl]
    rfl
  | none =>
    refine ⟨{ stamp := 0, regions := [r], limit_clients := [] }, ?_⟩
    show lookupClient (st.clients ++
      [(a, { stamp := 0, regions := [r], limit_clients := [] })]) a = _
    rw [lookupClient_append_none _ _ _ hl]
    simp [lookupClient]

theorem addMgr_lookup_self (st : ServerState) (a : ClientAddrT) (mgr : LimitManager)
    (i : ClientInfo) (h : lookupClient st.clients a = some i) :
    lookupClient (addMgr st a mgr).clients a =
      some { i with limit_clients := i.limit_clients ++ [mgr] } := by
  show lookupClient (updateClient st.clients a
    (fun j => { j with limit_clients := j.limit_clients ++ [mgr] })) a = _
  rw [lookupClient_update, if_pos rfl, h]
  rfl

theorem addMgr_hasSub (sub : UuidU) (st : ServerState) (a : ClientAddrT)
    (mgr : LimitManager) (hne : mgr.uuid ≠ sub) :
    subRegistered sub (addMgr st a mgr) = subRegistered sub st := by
  have hg : ∀ (b : ClientAddrT) (j : ClientInfo),
      ((fun (b2 : ClientAddrT) (j2 : ClientInfo) =>
        if b2 = a then { j2 with limit_clients := j2.limit_clients ++ [mgr] } else j2)
          b j).hasSub sub = j.hasSub sub := by
    intro b j
    by_cases hb : b = a
    · simp only [hb, if_pos rfl]
      show (j.limit_clients ++ [mgr]).any (fun m2 => m2.uuid = sub) =
        j.limit_clients.any (fun m2 => m2.uuid = sub)
      rw [List.any_append]
      simp [hne]
    · simp [hb]
  exact anyHasSub_map sub
    (fun b2 j2 => if b2 = a then { j2 with limit_clients := j2.limit_clients ++ [mgr] }
      else j2) hg st.clients

/-! ### Subscription invariant preservation -/

theorem subInv_init (sub : UuidU) (sid : UuidU) (tbl : TableName) :
    SubInv sub (initServer sid tbl) [] := by
  refine ⟨rfl, ?_⟩
  intro h2
  simp [subRegistered, initServer] at h2

theorem subInv_addLimitClient (rf : ReadFunc) (st : ServerState)
    (tr : List (ClientAddrT × StampedMsg)) (a : ClientAddrT) (r : DatumRange)
    (sub2 : UuidU) (l : LimitT) (sub : UuidU) (h : SubInv sub st tr) :
    SubInv sub (addLimitClientState rf st a r sub2 l).1
      (tr ++ (addLimitClientState rf st a r sub2 l).2) := by
  obtain ⟨hscan, hreg⟩ := h
  obtain ⟨i1, hi1⟩ := addClient_lookup_self st a r
  have hi2 := addMgr_lookup_self (addClientState st a r) a
    { table := st.table, sindex := l.sindex, parent_client := a, uuid := sub2,
      spec := l, data := initWindow rf st.table l, added := [], deleted := [] } i1 hi1
  have hseg : (addLimitClientState rf st a r sub2 l).2 =
      [(a, ⟨(addMgr (addClientState st a r) a
          { table := st.table, sindex := l.sindex, parent_client := a, uuid := sub2,
            spec := l, data := initWindow rf st.table l, added := [],
            deleted := [] }).sid,
        ({ i1 with limit_clients := i1.limit_clients ++
          [{ table := st.table, sindex := l.sindex, parent_client := a, uuid := sub2,
             spec := l, data := initWindow rf st.table l, added := [],
             deleted := [] }] } : ClientInfo).stamp,
        Msg.limit_start sub2 (initWindow rf st.table l)⟩)] := by
    show (sendOne (addMgr (addClientState st a r) a
        { table := st.table, sindex := l.sindex, parent_client := a, uuid := sub2,
          spec := l, data := initWindow rf st.table l, added := [], deleted := [] }) a
        (Msg.limit_start sub2 (initWindow rf st.table l))).2 = _
    unfold sendOne
    rw [hi2]
  refine ⟨?_, ?_⟩
  · rw [lsBeforeLc_append, hscan]
    have hnolc : ((addLimitClientState rf st a r sub2 l).2).any
        (isLimitChangeFor sub) = false := by
      rw [hseg]
      rfl
    rw [lsBeforeLc_of_noLC sub _ _ hnolc]
    rfl
  · intro h2
    rw [List.any_append]
    by_cases hsub : sub2 = sub
    · have hany : ((addLimitClientState rf st a r sub2 l).2).any
          (isLimitStartFor sub) = true := by
        rw [hseg]
        simp [isLimitStartFor, hsub]
      rw [hany]
      simp
    · have hrg : subRegistered sub (addLimitClientState rf st a r sub2 l).1 =
          subRegistered sub st := by
        show subRegistered sub (sendOne (addMgr (addClientState st a r) a
            { table := st.table, sindex := l.sindex, parent_client := a, uuid := sub2,
              spec := l, data := initWindow rf st.table l, added := [],
              deleted := [] }) a
            (Msg.limit_start sub2 (initWindow rf st.table l))).1 = _
        rw [subRegistered_sendOne, addMgr_hasSub sub _ a _ hsub,
          subRegistered_addClient]
      have h2b : subRegistered sub st = true := by
        rw [← hrg]
        exact h2
      rw [hreg h2b]
      rfl

theorem subInv_step (rf : ReadFunc) (st : ServerState)
    (tr : List (ClientAddrT × StampedMsg)) (sub : UuidU) (op : ServerOp)
    (h : SubInv sub st tr) :
    SubInv sub (stepOp rf st op).1 (tr ++ (stepOp rf st op).2) := by
  obtain ⟨hscan, hreg⟩ := h
  cases op with
  | add_client a r =>
    show SubInv sub (addClientState st a r) (tr ++ [])
    rw [List.append_nil]
    refine ⟨hscan, ?_⟩
    intro h2
    rw [subRegistered_addClient] at h2
    exact hreg h2
  | add_limit_client a r sub2 l =>
    exact subInv_addLimitClient rf st tr a r sub2 l sub ⟨hscan, hreg⟩
  | send_all m k =>
    refine ⟨?_, ?_⟩
    · show lsBeforeLc sub (tr ++ sendAllMsgs st m k) false = true
      rw [lsBeforeLc_append, hscan]
      cases hlc : (sendAllMsgs st m k).any (isLimitChangeFor sub) with
      | false =>
        rw [lsBeforeLc_of_noLC sub _ _ hlc]
        rfl
      | true =>
        have hr := hreg (sendAll_lc_registered st m k sub hlc)
        rw [hr]
        simp [lsBeforeLc_true]
    · intro h2
      show (tr ++ sendAllMsgs st m k).any (isLimitStartFor sub) = true
      rw [List.any_append]
      have h2b : subRegistered sub { st with clients := sendAllClients st m k } =
          true := h2
      rw [subRegistered_sendAll] at h2b
      rw [hreg h2b]
      rfl
  | stage_add s key val =>
    show SubInv sub (stageAdd st s key val) (tr ++ [])
    rw [List.append_nil]
    refine ⟨hscan, ?_⟩
    intro h2
    have heq : subRegistered sub (stageAdd st s key val) = subRegistered sub st := by
      have hg : ∀ (b : ClientAddrT) (j : ClientInfo),
          ((fun (_ : ClientAddrT) (j2 : ClientInfo) => { j2 with limit_clients := j2.limit_clients.map (fun (m2 : LimitManager) => if m2.sindex = s then m2.add key val else m2) }) b j).hasSub sub =
            j.hasSub sub := by
        intro b j
        show (j.limit_clients.map
            (fun m2 => if m2.sindex = s then m2.add key val else m2)).any
            (fun m2 => m2.uuid = sub) =
          j.limit_clients.any (fun m2 => m2.uuid = sub)
        refine anyUuid_map sub _ ?_ j.limit_clients
        intro m2
        by_cases hs : m2.sindex = s <;> simp [hs, LimitManager.add]
      exact anyHasSub_map sub (fun _ j2 => { j2 with limit_clients := j2.limit_clients.map (fun (m2 : LimitManager) => if m2.sindex = s then m2.add key val else m2) }) hg st.clients
    rw [heq] at h2
    exact hreg h2
  | stage_del s key =>
    show SubInv sub (stageDel st s key) (tr ++ [])
    rw [List.append_nil]
    refine ⟨hscan, ?_⟩
    intro h2
    have heq : subRegistered sub (stageDel st s key) = subRegistered sub st := by
      have hg : ∀ (b : ClientAddrT) (j : ClientInfo),
          ((fun (_ : ClientAddrT) (j2 : ClientInfo) => { j2 with limit_clients := j2.limit_clients.map (fun (m2 : LimitManager) => if m2.sindex = s then m2.del key else m2) }) b j).hasSub sub =
            j.hasSub sub := by
        intro b j
        show (j.limit_clients.map
            (fun m2 => if m2.sindex = s then m2.del key else m2)).any
            (fun m2 => m2.uuid = sub) =
          j.limit_clients.any (fun m2 => m2.uuid = sub)
        refine anyUuid_map sub _ ?_ j.limit_clients
        intro m2
        by_cases hs : m2.sindex = s <;> simp [hs, LimitManager.del]
      exact anyHasSub_map sub (fun _ j2 => { j2 with limit_clients := j2.limit_clients.map (fun (m2 : LimitManager) => if m2.sindex = s then m2.del key else m2) }) hg st.clients
    rw [heq] at h2
    exact hreg h2
  | commit_limits s =>
    refine ⟨?_, ?_⟩
    · show lsBeforeLc sub (tr ++ (commitStep rf st s).2) false = true
      rw [lsBeforeLc_append, hscan]
      cases hlc : ((commitStep rf st s).2).any (isLimitChangeFor sub) with
      | false =>
        rw [lsBeforeLc_of_noLC sub _ _ hlc]
        rfl
      | true =>
        have hr := hreg (commit_lc_registered rf st s sub hlc)
        rw [hr]
        simp [lsBeforeLc_true]
    · intro h2
      show (tr ++ (commitStep rf st s).2).any (isLimitStartFor sub) = true
      rw [List.any_append]
      have h2b : subRegistered sub (commitStep rf st s).1 = true := h2
      rw [subRegistered_commitStep] at h2b
      rw [hreg h2b]
      rfl

theorem subInv_runOps (rf : ReadFunc) (sub : UuidU) :
    ∀ (ops : List ServerOp) (st : ServerState) (tr : List (ClientAddrT × StampedMsg)),
      SubInv sub st tr → SubInv sub (runOps rf st ops).1 (tr ++ (runOps rf st ops).2) := by
  intro ops
  induction ops with
  | nil =>
    intro st tr h
    show SubInv sub st (tr ++ [])
    rw [List.append_nil]
    exact h
  | cons op rest ih =>
    intro st tr h
    show SubInv sub (runOps rf (stepOp rf st op).1 rest).1
      (tr ++ ((stepOp rf st op).2 ++ (runOps rf (stepOp rf st op).1 rest).2))
    rw [← List.append_assoc]
    exact ih (stepOp rf st op).1 (tr ++ (stepOp rf st op).2) (subInv_step rf st tr sub op h)

/-! ### Sorted-window lemmas -/

theorem pairwiseChain_cons (le : Entry → Entry → Bool) (a : Entry) (l : List Entry) :
    pairwiseChain le (a :: l) = true ↔
      ((∀ y, l.head? = some y → le a y = true) ∧ pairwiseChain le l = true) := by
  cases l with
  | nil =>
    simp [pairwiseChain]
  | cons b t =>
    show (le a b && pairwiseChain le (b :: t)) = true ↔ _
    rw [Bool.and_eq_true]
    constructor
    · intro hp
      refine ⟨?_, hp.2⟩
      intro y hy
      have hyb : b = y := by injection hy
      rw [← hyb]
      exact hp.1
    · intro hp
      exact ⟨hp.1 b rfl, hp.2⟩

theorem pc_mmInsert (e : Entry) :
    ∀ w : List Entry, pairwiseChain skLe w = true →
      pairwiseChain skLe (mmInsert e w) = true := by
  intro w
  induction w with
  | nil => intro _; rfl
  | cons x xs ih =>
    intro h
    obtain ⟨hh, ht⟩ := (pairwiseChain_cons skLe x xs).mp h
    show pairwiseChain skLe (if x.1 ≤ e.1 then x :: mmInsert e xs else e :: x :: xs) = true
    by_cases hx : x.1 ≤ e.1
    · rw [if_pos hx]
      apply (pairwiseChain_cons skLe x (mmInsert e xs)).mpr
      refine ⟨?_, ih ht⟩
      intro y hy
      cases xs with
      | nil =>
        have hye : e = y := by
          have : (mmInsert e []).head? = some y := hy
          injection this
        rw [← hye]
        simp [skLe, hx]
      | cons b t =>
        by_cases hb : b.1 ≤ e.1
        · have hhead : (mmInsert e (b :: t)).head? = some b := by
            show (if b.1 ≤ e.1 then b :: mmInsert e t else e :: b :: t).head? = some b
            rw [if_pos hb]
            rfl
          rw [hhead] at hy
          have hyb : b = y := by injection hy
          rw [← hyb]
          exact hh b rfl
        · have hhead : (mmInsert e (b :: t)).head? = some e := by
            show (if b.1 ≤ e.1 then b :: mmInsert e t else e :: b :: t).head? = some e
            rw [if_neg hb]
            rfl
          rw [hhead] at hy
          have hye : e = y := by injection hy
          rw [← hye]
          simp [skLe, hx]
    · rw [if_neg hx]
      apply (pairwiseChain_cons skLe e (x :: xs)).mpr
      refine ⟨?_, h⟩
      intro y hy
      have hyx : x = y := by injection hy
      rw [← hyx]
      show decide (e.1 ≤ x.1) = true
      have hle : e.1 ≤ x.1 := Nat.le_of_lt (Nat.gt_of_not_le hx)
      simp [hle]

theorem pc_mmInsertAll :
    ∀ (es : List Entry) (w : List Entry), pairwiseChain skLe w = true →
      pairwiseChain skLe (mmInsertAll es w) = true := by
  intro es
  induction es with
  | nil => intro w h; exact h
  | cons e es2 ih =>
    intro w h
    show pairwiseChain skLe (mmInsertAll es2 (mmInsert e w)) = true
    exact ih _ (pc_mmInsert e w h)

theorem pc_take (le : Entry → Entry → Bool) :
    ∀ (l : List Entry), pairwiseChain le l = true →
      ∀ n, pairwiseChain le (l.take n) = true := by
  intro l
  induction l with
  | nil =>
    intro _ n
    rw [List.take_nil]
    rfl
  | cons a t ih =>
    intro h n
    cases n with
    | zero => rfl
    | succ m =>
      obtain ⟨hh, ht⟩ := (pairwiseChain_cons le a t).mp h
      show pairwiseChain le (a :: t.take m) = true
      apply (pairwiseChain_cons le a (t.take m)).mpr
      refine ⟨?_, ih ht m⟩
      intro y hy
      apply hh y
      cases t with
      | nil =>
        rw [List.take_nil] at hy
        exact absurd hy (by simp)
      | cons b t2 =>
        cases m with
        | zero => exact absurd hy (by simp)
        | succ m2 =>
          have hyb : b = y := by
            have : (b :: t2.take m2).head? = some y := hy
            injection this
          rw [← hyb]
          rfl

/-! ### Claim theorem C3 -/

/-- C3: along every run of the server from construction, every `LimitChange`
transmitted for a subscription id is preceded in the transmission trace by a
`LimitStart` for that subscription id (the scan `lsBeforeLc` checks exactly
this); and the snapshot `add_limit_client` sends in its `LimitStart` — the
initial read's result assembled into the window (`initWindow`, see
`addLimitClientState`) — is an ordered sequence of (sort-key, row) pairs of
length at most the window size N. -/
theorem limit_start_before_limit_change (rf : ReadFunc) (sid : UuidU)
    (tbl : TableName) (ops : List ServerOp) (sub : UuidU) :
    lsBeforeLc sub (serverTrace rf sid tbl ops) false = true ∧
    ∀ l : LimitT, (initWindow rf tbl l).length ≤ l.limit ∧
      pairwiseChain skLe (initWindow rf tbl l) = true := by
  constructor
  · have hinv := subInv_runOps rf sub ops (initServer sid tbl) []
      (subInv_init sub sid tbl)
    exact hinv.1
  · intro l
    constructor
    · show ((mmInsertAll (rf l.range tbl l.sindex l.limit) []).take l.limit).length ≤
        l.limit
      rw [List.length_take]
      exact Nat.min_le_left _ _
    · show pairwiseChain skLe
        ((mmInsertAll (rf l.range tbl l.sindex l.limit) []).take l.limit) = true
      exact pc_take skLe _ (pc_mmInsertAll (rf l.range tbl l.sindex l.limit) [] rfl)
        l.limit

/-- C4 (evaluation at the failing input): the committed window of a manager
whose spec says `descending` comes out *ascending* by sort key — the source
stores the window in a `std::multimap` with comparator `std::less` on the
sort key only (changefeed.hpp line 263, marked `// RSI: sorting`), ignoring
the `sorting` field of `keyspec_t::limit_t`; so the window is not ordered by
(sort-key, primary-key) descending as the claim requires, though it is
ascending by sort key. -/
theorem commit_ignores_sorting_field :
    (mgrDescending.commit rfEmptyRead).mgr.data = [(1, ⟨1, 10⟩), (2, ⟨2, 20⟩)] ∧
    mgrDescending.spec.sorting = SortingT.descending ∧
    specOrderedPerSorting mgrDescending.spec.sorting
      (mgrDescending.commit rfEmptyRead).mgr.data = false ∧
    pairwiseChain skLe (mgrDescending.commit rfEmptyRead).mgr.data = true := by
  refine ⟨by decide, rfl, by decide, by decide⟩

/-- C5: when, after applying the staged deletions and additions, the window
holds fewer than N entries and at least one deletion was staged, `commit`
invokes `read_func` with the window's active range, the table name, the
secondary index and `n = N` minus the current window size; merges the
returned entries (deduplicated by primary key, see `refillEntries`) into the
window; and emits an insertion diff (old key absent, new value present) for
each newly admitted entry. -/
theorem commit_refill_read_and_insertions (m : LimitManager) (rf : ReadFunc)
    (h1 : (keptWindow m).length < m.spec.limit) (h2 : m.deleted ≠ []) :
    (m.commit rf).readCall = some (refillCall m) ∧
    (refillCall m).active_range = activeRange (keptWindow m) ∧
    (refillCall m).table = m.table ∧
    (refillCall m).sindex = m.sindex ∧
    (refillCall m).n = m.spec.limit - (keptWindow m).length ∧
    (m.commit rf).mgr.data = mmInsertAll (refillFetched m rf) (keptWindow m) ∧
    (∀ e ∈ refillFetched m rf,
      Msg.limit_change m.uuid none (some e) ∈ (m.commit rf).diffs) := by
  have hne : m.deleted.isEmpty = false := by
    cases hd : m.deleted with
    | nil => exact absurd hd h2
    | cons a l => rfl
  have hr : needsRefill m = true := by
    simp [needsRefill, h1, hne]
  refine ⟨?_, rfl, rfl, rfl, rfl, ?_, ?_⟩
  · simp [LimitManager.commit, hr]
  · simp [LimitManager.commit, hr]
  · intro e he
    have hmem : Msg.limit_change m.uuid none (some e) ∈
        ((m.added.diff (truncEntries m) ++ refillFetched m rf).map
          (fun x => Msg.limit_change m.uuid none (some x))) :=
      List.mem_map_of_mem _ (List.mem_append_right _ he)
    simp only [LimitManager.commit, hr, if_true]
    exact List.mem_append_right _ hmem

theorem commit_refill_read_and_insertions_witness :
    (mgrRefill.commit rfOneRow).readCall = some (refillCall mgrRefill) ∧
    Msg.limit_change 7 none (some (3, ⟨3, 3⟩)) ∈ (mgrRefill.commit rfOneRow).diffs :=
  ⟨(commit_refill_read_and_insertions mgrRefill rfOneRow (by decide) (by decide)).1,
   (commit_refill_read_and_insertions mgrRefill rfOneRow (by decide)
     (by decide)).2.2.2.2.2.2 (3, ⟨3, 3⟩) (by decide)⟩

/-- C6: within any single commit, every deletion diff (staged deletion or
truncation/eviction) is emitted before every insertion diff (surviving
addition or refill): scanning the emitted diff list, no deletion diff occurs
after an insertion diff. -/
theorem commit_deletions_before_insertions (m : LimitManager) (rf : ReadFunc) :
    delAfterInsFree (m.commit rf).diffs false = true := by
  show delAfterInsFree
    (((removedByDels m ++ truncEntries m).map
        (fun e => Msg.limit_change m.uuid (some e.1) none)) ++
      ((m.added.diff (truncEntries m) ++
          (if needsRefill m then refillFetched m rf else [])).map
        (fun e => Msg.limit_change m.uuid none (some e)))) false = true
  rw [delAfterInsFree_append]
  have h1 := delAfterInsFree_of_noIns _ (noIns_of_delShape m)
  have h2 := delAfterInsFree_of_noDel
    ((m.added.diff (truncEntries m) ++
        (if needsRefill m then refillFetched m rf else [])).map
      (fun e => Msg.limit_change m.uuid none (some e)))
    (false || ((removedByDels m ++ truncEntries m).map
        (fun e => Msg.limit_change m.uuid (some e.1) none)).any isInsDiff)
    (noDel_of_insShape m _)
  rw [h1, h2]
  rfl

/-- C7: a commit on a limit manager whose staged `added` and `deleted`
buffers are both empty emits no diffs, performs no read, and leaves the
window unchanged (the window satisfies its size invariant `≤ N`). -/
theorem commit_empty_buffers_noop (m : LimitManager) (rf : ReadFunc)
    (h1 : m.added = []) (h2 : m.deleted = [])
    (h3 : m.data.length ≤ m.spec.limit) :
    (m.commit rf).diffs = [] ∧ (m.commit rf).readCall = none ∧
    (m.commit rf).mgr.data = m.data := by
  have hpost : postApply m = m.data := by
    simp [postApply, h1, h2, applyDels, mmInsertAll]
  have hkept : keptWindow m = m.data := by
    rw [keptWindow, hpost]
    exact List.take_of_length_le h3
  have htrunc : truncEntries m = [] := by
    rw [truncEntries, hpost]
    exact List.drop_eq_nil_of_le h3
  have hrem : removedByDels m = [] := by
    simp [removedByDels, h2, applyDels]
  have hr : needsRefill m = false := by
    simp [needsRefill, h2]
  refine ⟨?_, ?_, ?_⟩
  · simp [LimitManager.commit, hr, htrunc, hrem, h1]
  · simp [LimitManager.commit, hr]
  · simp [LimitManager.commit, hr, hkept, mmInsertAll]

theorem commit_empty_buffers_noop_witness :
    (mgrIdle.commit rfEmptyRead).diffs = [] ∧
    (mgrIdle.commit rfEmptyRead).readCall = none ∧
    (mgrIdle.commit rfEmptyRead).mgr.data = mgrIdle.data :=
  commit_empty_buffers_noop mgrIdle rfEmptyRead (by decide) (by decide) (by decide)

/-! ### Round-trip lemmas -/

theorem decOptDatum_enc (o : Option Datum) (rest : List Nat) :
    decOptDatum (encOptDatum o ++ rest) = some (o, rest) := by
  cases o <;> rfl

theorem decEntry_enc (e : Entry) (rest : List Nat) :
    decEntry (encEntry e ++ rest) = some (e, rest) := by
  rcases e with ⟨sk, r⟩
  rfl

theorem decOptEntry_enc (o : Option Entry) (rest : List Nat) :
    decOptEntry (encOptEntry o ++ rest) = some (o, rest) := by
  cases o with
  | none => rfl
  | some e =>
    show decOptEntry (1 :: (encEntry e ++ rest)) = some (some e, rest)
    simp [decOptEntry, decEntry_enc]

theorem decEntries_enc (l : List Entry) (rest : List Nat) :
    decEntries l.length ((l.map encEntry).flatten ++ rest) = some (l, rest) := by
  induction l with
  | nil => rfl
  | cons e es ih =>
    simp only [List.length_cons, List.map_cons, List.flatten_cons,
      List.append_assoc]
    show decEntries (es.length + 1) (encEntry e ++ ((es.map encEntry).flatten ++ rest)) =
      some (e :: es, rest)
    simp [decEntries, decEntry_enc, ih]

theorem decEntryList_enc (l : List Entry) (rest : List Nat) :
    decEntryList (encEntryList l ++ rest) = some (l, rest) := by
  show decEntryList (l.length :: ((l.map encEntry).flatten ++ rest)) = some (l, rest)
  simp [decEntryList, decEntries_enc]

theorem decMsg_enc (m : Msg) (rest : List Nat) :
    decMsg (encMsg m ++ rest) = some (m, rest) := by
  cases m with
  | stop => rfl
  | change o n =>
    show decMsg (1 :: (encOptDatum o ++ encOptDatum n ++ rest)) = some (.change o n, rest)
    simp [decMsg, List.append_assoc, decOptDatum_enc]
  | limit_start sub sd =>
    show decMsg (2 :: sub :: (encEntryList sd ++ rest)) = some (.limit_start sub sd, rest)
    simp [decMsg, decEntryList_enc]
  | limit_change sub ok nv =>
    show decMsg (3 :: sub :: (encOptDatum ok ++ encOptEntry nv ++ rest)) =
      some (.limit_change sub ok nv, rest)
    simp [decMsg, List.append_assoc, decOptDatum_enc, decOptEntry_enc]

/-! ### Claim theorems C8, C9, C10 -/

/-- C8: for every table id, calling `maybe_remove_feed` twice in succession
leaves the client registry in the same state as calling it once (no new
subscription between the calls: nothing else touches the map between the two
applications). -/
theorem maybe_remove_feed_idempotent (feeds : FeedsMap) (tbl : Nat) :
    maybe_remove_feed (maybe_remove_feed feeds tbl) tbl = maybe_remove_feed feeds tbl := by
  unfold maybe_remove_feed
  cases h : feeds tbl with
  | none => simp [h]
  | some f =>
    by_cases hz : f.subCount = 0
    · simp [h, hz]
    · simp [h, hz]

/-- C9: serializing any `stamped_msg_t` (any of the four payload variants)
and deserializing the result yields the original value (and consumes the
whole encoding). -/
theorem stamped_msg_roundtrip (s : StampedMsg) :
    decStamped (encStamped s) = some (s, []) := by
  rcases s with ⟨server, stamp, m⟩
  show decStamped (server :: stamp :: encMsg m) = some (⟨server, stamp, m⟩, [])
  have h := decMsg_enc m []
  simp only [List.append_nil] at h
  simp [decStamped, h]

/-- C10: a default-constructed `msg_t` holds the `stop_t` variant (the first
declared alternative of the `boost::variant` on line 107), so a message whose
payload is never assigned is interpreted as a Stop message. -/
theorem msg_t_default_is_stop :
    msg_t_default = Msg.stop ∧ msg_t_default.isStopVariant = true := by
  exact ⟨rfl, rfl⟩

end Changefeed
